import Mathlib

/-!
Verification development for the pipeliner repository (src/src/pipeliner.py).

The planner of the Pipeliner class is embedded shallowly: node bindings are
assoc lists from port names to lists of endpoints, the port pool is the
availablePorts list (Python list.pop takes the last element), and each
planner phase is an explicit state-passing function returning Except, since
the Python code raises exceptions; a raise is an Except.error and every
dict or list access that can raise goes through ofOption.  The networkx
topological sort is not part of this repository; the planner here takes
the node processing order as a parameter, exactly the list of nodes that
nx.topological_sort yields.  Graph edges are kept in insertion order.  The
generated bash strings are represented as structured jobs carrying the
data the source interpolates into each command template.
-/

namespace Pipeliner

/-- Endpoint kinds: the literal string stdin, the literal string stdout, or a
numeric TCP port, as stored in the ingress and egress dicts of a Node. -/
inductive EP where
  | stdin : EP
  | stdout : EP
  | port : Nat → EP
deriving DecidableEq

/-- Edge types accepted by Pipeliner.addEdge: text, binary, none. -/
inductive EdgeType where
  | binary : EdgeType
  | text : EdgeType
  | none : EdgeType
deriving DecidableEq

/-- The exceptions the planner can raise, with the data the source
interpolates into each message. -/
inductive PlanError where
  | emptyNode (node : String)
  | unknownEgress (node output : String)
  | unknownIngress (node input : String)
  | multipleProducersToInput (node : String) (ingressNames : List String)
  | exhaustedPool
  | keyError
  | indexError
  | stopIteration
deriving DecidableEq

/-- The message of the multiple-producers exception, rendered exactly as the
f-string in Pipeliner._sanityCheck, octocat suggestion included. -/
def errorMessage : PlanError → String
  | .multipleProducersToInput node names =>
      "Multiple incoming outputs: [" ++ String.intercalate " " names ++
        "] to an input of node " ++ node ++ ". Did you mean to use octocat?"
  | .emptyNode node => "Node " ++ node ++ " does not have any input or output."
  | .unknownEgress node output =>
      "Node " ++ node ++ " does not have an output named " ++ output
  | .unknownIngress node input =>
      "Node " ++ node ++ " does not have an input named " ++ input
  | _ => ""

/-- Turn an optional lookup into the exception the Python code would raise
at that point: a missing dict key, an index into an empty list, or an empty
generator passed to next. -/
def ofOption {α : Type} (o : Option α) (e : PlanError) : Except PlanError α :=
  match o with
  | some a => .ok a
  | Option.none => .error e

/-- An edge of the MultiDiGraph: endpoints are node indices, and the info
dict stores the egress name, the ingress name, the derived edge name and
the type. -/
structure Edge where
  src : Nat
  tgt : Nat
  srcOut : String
  tgtIn : String
  name : String
  etype : EdgeType
deriving DecidableEq

/-- A Node as built by Pipeliner.Node.__init__: each declared binding is
wrapped in a singleton list, stdinName is the first ingress declared as
stdin, stdoutName the first egress declared as stdout.  The label is
assigned later by the planner. -/
structure Node where
  name : String
  ingress : List (String × List EP)
  egress : List (String × List EP)
  stdinName : Option String
  stdoutName : Option String
  code : String
  label : String
deriving DecidableEq

/-- The declared graph: the node list (indices are node identities) and the
edge list in insertion order. -/
structure Graph where
  nodes : List Node
  edges : List Edge
deriving DecidableEq

/-- Node.__init__: reject a node with no input and no output, wrap every
declared binding in a singleton list, record stdinName and stdoutName. -/
def mkNode (name : String) (ingress egress : List (String × EP)) (code : String) :
    Except PlanError Node :=
  if ingress = [] ∧ egress = [] then .error (.emptyNode name)
  else .ok
    { name := name
    , ingress := ingress.map (fun p => (p.1, [p.2]))
    , egress := egress.map (fun p => (p.1, [p.2]))
    , stdinName := (ingress.find? (fun p => p.2 == EP.stdin)).map Prod.fst
    , stdoutName := (egress.find? (fun p => p.2 == EP.stdout)).map Prod.fst
    , code := code
    , label := "" }

/-- Pipeliner.addEdge: validate the egress and ingress names and append an
edge whose name is sourceOutput ++ "2" ++ targetInput.  The source takes
node objects; here they are indices into the node list, so the lookup can
not actually fail on a graph built through this interface.  The type check
of the source is made unnecessary by the EdgeType inductive. -/
def addEdge (g : Graph) (src : Nat) (sourceOutput : String) (tgt : Nat)
    (targetInput : String) (etype : EdgeType) : Except PlanError Graph :=
  (ofOption (g.nodes.get? src) PlanError.keyError).bind fun s =>
  (ofOption (g.nodes.get? tgt) PlanError.keyError).bind fun t =>
  if (s.egress.find? (fun p => p.1 == sourceOutput)).isNone then
    .error (.unknownEgress s.name sourceOutput)
  else if (t.ingress.find? (fun p => p.1 == targetInput)).isNone then
    .error (.unknownIngress t.name targetInput)
  else .ok { g with edges := g.edges ++
    [{ src := src, tgt := tgt, srcOut := sourceOutput, tgtIn := targetInput
     , name := sourceOutput ++ "2" ++ targetInput, etype := etype }] }

/-- The pool of available ports together with the ghost list of ports the
pool has already handed out, in the order they were handed out. -/
structure Pool where
  avail : List Nat
  granted : List Nat
deriving DecidableEq

/-- self.availablePorts.pop(): Python list.pop removes and returns the last
element, and raises on an empty list (the drained-pool failure). -/
def acquire (p : Pool) : Except PlanError (Nat × Pool) :=
  (ofOption p.avail.getLast? PlanError.exhaustedPool).bind fun v =>
    .ok (v, { avail := p.avail.dropLast, granted := p.granted ++ [v] })

/-- A list comprehension of n pops, in pop order. -/
def acquireN : Nat → Pool → Except PlanError (List Nat × Pool)
  | 0, p => .ok ([], p)
  | n + 1, p =>
    (acquire p).bind fun r =>
      (acquireN n r.2).bind fun r2 => .ok (r.1 :: r2.1, r2.2)

/-- Dict lookup on an assoc list: the first entry with the given key. -/
def aget (l : List (String × List EP)) (k : String) : Option (List EP) :=
  (l.find? (fun p => p.1 == k)).map Prod.snd

/-- Dict update on an assoc list: replace the value at the given key,
keeping entry order, as a Python dict assignment to an existing key does. -/
def aset (l : List (String × List EP)) (k : String) (v : List EP) :
    List (String × List EP) :=
  l.map (fun p => if p.1 == k then (p.1, v) else p)

/-- Flatten all binding lists of an assoc list, in order: the flatten
helper applied to node.ingress.values(). -/
def bindingVals (l : List (String × List EP)) : List EP :=
  (l.map Prod.snd).flatten

/-- Mutable planner state: the evolving copies of the nodes plus the pool. -/
structure PState where
  nodes : List Node
  pool : Pool
deriving DecidableEq

/-- The edges into node i, in edge-list order. -/
def inEdges (g : Graph) (i : Nat) : List Edge :=
  g.edges.filter (fun e => e.tgt == i)

/-- The edges out of node i, in edge-list order. -/
def outEdges (g : Graph) (i : Nat) : List Edge :=
  g.edges.filter (fun e => e.src == i)

/-- Pipeliner._sanityCheck at a single node: if the in-degree exceeds one
and the set of targeted ingress names is smaller than the in-degree, raise
the multiple-producers error carrying the node name and the deduplicated
ingress names. -/
def sanityNode (g : Graph) (i : Nat) : Option PlanError :=
  let es := inEdges g i
  if 1 < es.length then
    let names := (es.map (fun e => e.tgtIn)).dedup
    if names.length < es.length then
      some (.multipleProducersToInput
        (match g.nodes.get? i with | some nd => nd.name | Option.none => "") names)
    else Option.none
  else Option.none

def sanityCheckAux (g : Graph) : List Nat → Except PlanError Unit
  | [] => .ok ()
  | i :: rest =>
    match sanityNode g i with
    | some e => .error e
    | Option.none => sanityCheckAux g rest

/-- Pipeliner._sanityCheck: scan the nodes in insertion order and raise at
the first node with two incoming edges into one ingress. -/
def sanityCheck (g : Graph) : Except PlanError Unit :=
  sanityCheckAux g (List.range g.nodes.length)

/-- str(counter).zfill(2). -/
def zfill2 (n : Nat) : String :=
  if n < 10 then "0" ++ toString n else toString n

def setLabel (nodes : List Node) (i : Nat) (lbl : String) : List Node :=
  match nodes.get? i with
  | some nd => nodes.set i { nd with label := lbl }
  | Option.none => nodes

def labelNodesAux : List (Nat × Nat) → List Node → List Node
  | [], nodes => nodes
  | (k, i) :: rest, nodes => labelNodesAux rest (setLabel nodes i (zfill2 k))

/-- Pipeliner._labelNodes: the k-th node of the topological order receives
the two-digit zero-padded label of k. -/
def labelNodes (order : List Nat) (nodes : List Node) : List Node :=
  labelNodesAux order.enum nodes

/-- Counter of the egress names of a list of out-edges: keys in first
occurrence order with their multiplicities, as collections.Counter yields
them. -/
def bumpCounter (acc : List (String × Nat)) (k : String) : List (String × Nat) :=
  if acc.any (fun p => p.1 == k) then
    acc.map (fun p => if p.1 == k then (p.1, p.2 + 1) else p)
  else acc ++ [(k, 1)]

def counterFrom (es : List Edge) : List (String × Nat) :=
  es.foldl (fun acc e => bumpCounter acc e.srcOut) []

/-- The proxy commands emitted by Pipeliner._createProxies, as structured
data: the alias case emits netcatListen(proxyInputPort) piped into
netcat(shared endpoint) piped into a tee over the proxy output ports, the
fan-out case emits netcatListen(shared endpoint) piped into the tee. -/
inductive ProxyJob where
  | aliasProxy (proxyInputPort : Nat) (shared : EP) (outs : List Nat) : ProxyJob
  | fanout (shared : EP) (outs : List Nat) : ProxyJob
deriving DecidableEq

/-- One iteration of the Counter loop of Pipeliner._createProxies for a
node: inputTypes is the snapshot of the flattened ingress values taken at
node entry, oc is an (egress name, outgoing edge count) pair.  The alias
branch pops count proxy output ports and then one proxy input port,
rewrites the egress to the output ports and the first ingress currently
containing the shared endpoint to the input port.  The fan-out branch pops
count ports for an egress with more than one outgoing edge that is not
stdout. -/
def proxyStep (inputTypes : List EP) (nd : Node) (pool : Pool) (oc : String × Nat) :
    Except PlanError (Node × Pool × List ProxyJob) :=
  (ofOption (aget nd.egress oc.1) PlanError.keyError).bind fun binding =>
  (ofOption binding.head? PlanError.indexError).bind fun outputType =>
  if outputType ∈ inputTypes then
    (acquireN oc.2 pool).bind fun rOut =>
    (acquire rOut.2).bind fun rIn =>
    let nd1 : Node := { nd with egress := aset nd.egress oc.1 (rOut.1.map EP.port) }
    (ofOption (nd1.ingress.find? (fun p => decide (outputType ∈ p.2)))
        PlanError.stopIteration).bind fun ipair =>
    .ok ({ nd1 with ingress := aset nd1.ingress ipair.1 [EP.port rIn.1] },
         rIn.2, [ProxyJob.aliasProxy rIn.1 outputType rOut.1])
  else if 1 < oc.2 ∧ outputType ≠ EP.stdout then
    (acquireN oc.2 pool).bind fun rs =>
    .ok ({ nd with egress := aset nd.egress oc.1 (rs.1.map EP.port) },
         rs.2, [ProxyJob.fanout outputType rs.1])
  else .ok (nd, pool, [])

def proxyOcs (inputTypes : List EP) :
    List (String × Nat) → Node → Pool → Except PlanError (Node × Pool × List ProxyJob)
  | [], nd, pool => .ok (nd, pool, [])
  | oc :: rest, nd, pool =>
    (proxyStep inputTypes nd pool oc).bind fun r =>
      (proxyOcs inputTypes rest r.1 r.2.1).bind fun r2 =>
        .ok (r2.1, r2.2.1, r.2.2 ++ r2.2.2)

/-- Pipeliner._createProxies at one node of the topological order. -/
def proxyNode (g : Graph) (st : PState) (i : Nat) :
    Except PlanError (PState × List ProxyJob) :=
  (ofOption (st.nodes.get? i) PlanError.keyError).bind fun nd =>
    (proxyOcs (bindingVals nd.ingress) (counterFrom (outEdges g i)) nd st.pool).bind fun r =>
      .ok ({ nodes := st.nodes.set i r.1, pool := r.2.1 }, r.2.2)

def createProxiesAux (g : Graph) :
    List Nat → PState → Except PlanError (PState × List ProxyJob)
  | [], st => .ok (st, [])
  | i :: rest, st =>
    (proxyNode g st i).bind fun r =>
      (createProxiesAux g rest r.1).bind fun r2 => .ok (r2.1, r.2 ++ r2.2)

/-- One command of Pipeliner._executeLocalResources, as structured data:
the optional stdin bridge port, the component code, the stderr log path,
and the ports capturing a bridged stdout. -/
structure LocalCmd where
  stdinPort : Option Nat
  code : String
  errLog : String
  stdoutPorts : List Nat
deriving DecidableEq

/-- The stdin half of Pipeliner._executeLocalResources: when the node
listens on stdin, pop one port and rewrite that ingress to it. -/
def execStdin (nd : Node) (pool : Pool) : Except PlanError (Node × Pool × Option Nat) :=
  match nd.stdinName with
  | some k =>
    (acquire pool).bind fun r =>
      .ok ({ nd with ingress := aset nd.ingress k [EP.port r.1] }, r.2, some r.1)
  | Option.none => .ok (nd, pool, Option.none)

/-- Pipeliner._executeLocalResources at one node: bridge stdin, then pop
one port per outgoing edge of the stdout egress and rewrite that egress to
them.  The stdout rewrite only happens when such edges exist, and then
stdoutName is necessarily set, since the edge filter compares the edge
egress name with it. -/
def execNode (g : Graph) (logsDir : String) (st : PState) (i : Nat) :
    Except PlanError (PState × LocalCmd) :=
  (ofOption (st.nodes.get? i) PlanError.keyError).bind fun nd =>
  (execStdin nd st.pool).bind fun r1 =>
  let efs := g.edges.filter (fun e => e.src == i && nd.stdoutName == some e.srcOut)
  let errLog := logsDir ++ "/" ++ nd.label ++ "-" ++ nd.name ++ ".err"
  if efs.length = 0 then
    .ok ({ nodes := st.nodes.set i r1.1, pool := r1.2.1 },
         { stdinPort := r1.2.2, code := nd.code, errLog := errLog, stdoutPorts := [] })
  else
    (ofOption nd.stdoutName PlanError.keyError).bind fun s =>
    (acquireN efs.length r1.2.1).bind fun r2 =>
    .ok ({ nodes := st.nodes.set i { r1.1 with egress := aset r1.1.egress s (r2.1.map EP.port) }
         , pool := r2.2 },
         { stdinPort := r1.2.2, code := nd.code, errLog := errLog, stdoutPorts := r2.1 })

def execAll (g : Graph) (logsDir : String) :
    List Nat → PState → Except PlanError (PState × List LocalCmd)
  | [], st => .ok (st, [])
  | i :: rest, st =>
    (execNode g logsDir st i).bind fun r =>
      (execAll g logsDir rest r.1).bind fun r2 => .ok (r2.1, r.2 :: r2.2)

/-- The build-time metrics toggle of the source, off by default. -/
def METRICS : Bool := false

/-- self._timestampFormat: strftime placeholders rendering as a wall clock
timestamp of the shape YYYY-MM-DD HH:MM:SS in square brackets. -/
def timestampFormat : String := "[%Y-%m-%d %H:%M:%S]"

/-- A tee argument of Pipeliner._createPipes: a raw data file, a process
substitution timestamping every line into a log file, a plain log file, or
the metrics sampler. -/
inductive TeeSink where
  | dataFile (path : String) : TeeSink
  | tsLog (fmt : String) (path : String) : TeeSink
  | plainLog (path : String) : TeeSink
  | metricsSink (edgeName : String) : TeeSink
deriving DecidableEq

/-- One pipe command of Pipeliner._createPipes: a listener on the popped
source egress endpoint, the tee arguments, and a connector to the popped
target ingress endpoint. -/
structure PipeJob where
  listen : EP
  tees : List TeeSink
  connect : EP
deriving DecidableEq

/-- Python list.pop() on a binding list: remove and return the last
element, raising IndexError on an empty list. -/
def popLast (l : List EP) : Except PlanError (EP × List EP) :=
  (ofOption l.getLast? PlanError.indexError).bind fun v => .ok (v, l.dropLast)

/-- The tee arguments Pipeliner._createPipes builds for an edge, given the
log name without extension: a .data file with the raw bytes for binary, a
per-line timestamping process substitution into a .log file for text, a
plain .log file for none, plus the optional metrics sampler. -/
def teeArgsFor (etype : EdgeType) (edgeName logName : String) : List TeeSink :=
  (match etype with
   | EdgeType.binary => [TeeSink.dataFile (logName ++ ".data")]
   | EdgeType.text => [TeeSink.tsLog timestampFormat (logName ++ ".log")]
   | EdgeType.none => [TeeSink.plainLog (logName ++ ".log")]) ++
  (if METRICS then [TeeSink.metricsSink edgeName] else [])

/-- Pipeliner._createPipes for one edge: build the log name from the two
node labels and the edge name, choose the tee argument by edge type, then
destructively pop one endpoint from the source egress binding and one from
the target ingress binding. -/
def pipeEdge (logsDir : String) (st : PState) (e : Edge) :
    Except PlanError (PState × PipeJob) :=
  (ofOption (st.nodes.get? e.src) PlanError.keyError).bind fun s =>
  (ofOption (st.nodes.get? e.tgt) PlanError.keyError).bind fun t =>
  let logName := logsDir ++ "/l_" ++ s.label ++ "-" ++ t.label ++ "-" ++ e.name
  (ofOption (aget s.egress e.srcOut) PlanError.keyError).bind fun eb =>
  (popLast eb).bind fun rL =>
  let st1 : PState :=
    { st with nodes := st.nodes.set e.src { s with egress := aset s.egress e.srcOut rL.2 } }
  (ofOption (st1.nodes.get? e.tgt) PlanError.keyError).bind fun t1 =>
  (ofOption (aget t1.ingress e.tgtIn) PlanError.keyError).bind fun ib =>
  (popLast ib).bind fun rC =>
  .ok ({ st1 with nodes :=
          st1.nodes.set e.tgt { t1 with ingress := aset t1.ingress e.tgtIn rC.2 } },
       { listen := rL.1, tees := teeArgsFor e.etype e.name logName, connect := rC.1 })

def createPipesAux (logsDir : String) :
    List Edge → PState → Except PlanError (PState × List PipeJob)
  | [], st => .ok (st, [])
  | e :: rest, st =>
    (pipeEdge logsDir st e).bind fun r =>
      (createPipesAux logsDir rest r.1).bind fun r2 => .ok (r2.1, r.2 :: r2.2)

/-- The planning phases that rewrite endpoint bindings: label the nodes,
insert proxies, bridge stdin and stdout.  This is the planner state right
before the per-edge wiring drains the binding lists. -/
def bridgePhase (g : Graph) (logsDir : String) (order : List Nat) (pool : Pool) :
    Except PlanError (PState × List ProxyJob × List LocalCmd) :=
  (createProxiesAux g order { nodes := labelNodes order g.nodes, pool := pool }).bind fun r1 =>
    (execAll g logsDir order r1.1).bind fun r2 => .ok (r2.1, r1.2, r2.2)

/-- The ordered command lists the pipeline script is assembled from. -/
structure Plan where
  proxies : List ProxyJob
  locals : List LocalCmd
  pipes : List PipeJob
deriving DecidableEq

/-- Pipeliner.createPipeline after the sanity check: labelling, proxies,
local resources, pipes. -/
def planAfterSanity (g : Graph) (order : List Nat) (logsDir : String) (pool : Pool) :
    Except PlanError (Plan × PState) :=
  (bridgePhase g logsDir order pool).bind fun rb =>
    (createPipesAux logsDir g.edges rb.1).bind fun rp =>
      .ok ({ proxies := rb.2.1, locals := rb.2.2, pipes := rp.2 }, rp.1)

/-- Pipeliner.createPipeline: sanity check first, then the planning
phases. -/
def createPipeline (g : Graph) (order : List Nat) (logsDir : String) (pool : Pool) :
    Except PlanError (Plan × PState) :=
  (sanityCheck g).bind fun _ => planAfterSanity g order logsDir pool

/-- Concrete input for the C2 theorem: two text edges into the stdin
ingress of the same node. -/
def sampleA : Node :=
  { name := "A", ingress := [], egress := [("out", [EP.stdout])]
  , stdinName := Option.none, stdoutName := some "out", code := "catA", label := "" }

def sampleB : Node :=
  { name := "B", ingress := [("in", [EP.stdin])], egress := []
  , stdinName := some "in", stdoutName := Option.none, code := "catB", label := "" }

def sampleEdgeAB : Edge :=
  { src := 0, tgt := 1, srcOut := "out", tgtIn := "in", name := "out2in"
  , etype := EdgeType.text }

def collidingGraph : Graph :=
  { nodes := [sampleA, sampleB], edges := [sampleEdgeAB, sampleEdgeAB] }

/-- A concrete linear pipeline: stdout of A feeds stdin of B over one text
edge. -/
def linearGraph : Graph :=
  { nodes := [sampleA, sampleB], edges := [sampleEdgeAB] }

/-- The plan the planner produces for linearGraph with pool
[9000, 9001, 9002]. -/
def linearPlan : Plan :=
  { proxies := []
  , locals :=
      [{ stdinPort := Option.none, code := "catA", errLog := "logs/00-A.err"
       , stdoutPorts := [9002] },
       { stdinPort := some 9001, code := "catB", errLog := "logs/01-B.err"
       , stdoutPorts := [] }]
  , pipes :=
      [{ listen := EP.port 9002
       , tees := [TeeSink.tsLog "[%Y-%m-%d %H:%M:%S]" "logs/l_00-01-out2in.log"]
       , connect := EP.port 9001 }] }

/-- The final planner state for linearGraph with pool [9000, 9001, 9002]. -/
def linearSt : PState :=
  { nodes :=
      [{ name := "A", ingress := [], egress := [("out", [])]
       , stdinName := Option.none, stdoutName := some "out", code := "catA", label := "00" },
       { name := "B", ingress := [("in", [])], egress := []
       , stdinName := some "in", stdoutName := Option.none, code := "catB", label := "01" }]
  , pool := { avail := [9000], granted := [9002, 9001] } }

/-- The planner state of the linear pipeline right after stream bridging,
with stdout of A captured on port 9002 and stdin of B bridged on 9001. -/
def linearStMid : PState :=
  { nodes :=
      [{ name := "A", ingress := [], egress := [("out", [EP.port 9002])]
       , stdinName := Option.none, stdoutName := some "out", code := "catA", label := "00" },
       { name := "B", ingress := [("in", [EP.port 9001])], egress := []
       , stdinName := some "in", stdoutName := Option.none, code := "catB", label := "01" }]
  , pool := { avail := [9000], granted := [9002, 9001] } }

/-- Concrete input for the C1 witness: B receives on port 5000 and also
declares port 5000 on its egress o, which feeds C — the alias case. -/
def wNodeA : Node :=
  { name := "A", ingress := [], egress := [("out", [EP.port 5000])]
  , stdinName := Option.none, stdoutName := Option.none, code := "catA", label := "" }

def wNodeB : Node :=
  { name := "B", ingress := [("in", [EP.port 5000])], egress := [("o", [EP.port 5000])]
  , stdinName := Option.none, stdoutName := Option.none, code := "catB", label := "" }

def wNodeC : Node :=
  { name := "C", ingress := [("i", [EP.port 6000])], egress := []
  , stdinName := Option.none, stdoutName := Option.none, code := "catC", label := "" }

def wGraph : Graph :=
  { nodes := [wNodeA, wNodeB, wNodeC]
  , edges :=
    [ { src := 0, tgt := 1, srcOut := "out", tgtIn := "in", name := "out2in"
      , etype := EdgeType.text }
    , { src := 1, tgt := 2, srcOut := "o", tgtIn := "i", name := "o2i"
      , etype := EdgeType.text } ] }

def wPool : Pool := { avail := [9000, 9001, 9002], granted := [] }

/-- Concrete input for the C1 counterexample: the egress o of B and the
ingress i1 of B both declare port 5000, but o has no outgoing edge, so the
Counter loop of proxy insertion never examines it and the alias survives
planning. -/
def cexNodeA : Node :=
  { name := "A", ingress := [], egress := [("out", [EP.stdout])]
  , stdinName := Option.none, stdoutName := some "out", code := "catA", label := "" }

def cexNodeB : Node :=
  { name := "B"
  , ingress := [("i2", [EP.port 7000]), ("i1", [EP.port 5000])]
  , egress := [("o", [EP.port 5000])]
  , stdinName := Option.none, stdoutName := Option.none, code := "catB", label := "" }

def cexGraph : Graph :=
  { nodes := [cexNodeA, cexNodeB]
  , edges := [{ src := 0, tgt := 1, srcOut := "out", tgtIn := "i2", name := "out2i2"
              , etype := EdgeType.text }] }

def cexPool : Pool := { avail := [9000, 9001], granted := [] }

/-- The multiset of ingress names targeted by the incoming edges of node i. -/
def inNames (g : Graph) (i : Nat) : List String :=
  (inEdges g i).map (fun e => e.tgtIn)

/-- The label of node i in a planner state (empty when the index is
absent, which does not happen on well formed graphs). -/
def labelOf (st : PState) (i : Nat) : String :=
  match st.nodes.get? i with
  | some nd => nd.label
  | Option.none => ""

/-- The pool q is reachable from p by a sequence of acquisitions: the
granted list grew by a suffix, the available list lost a suffix, and the
ports, granted and available together, are a permutation of what they
were. -/
def poolEvolves (p q : Pool) : Prop :=
  (∃ d, q.granted = p.granted ++ d) ∧
  (∃ d, p.avail = q.avail ++ d) ∧
  (q.granted ++ q.avail).Perm (p.granted ++ p.avail)

/-- Well formed pool relative to the configured port list P: granted and
available ports together are duplicate free and all drawn from P. -/
def poolWF (P : List Nat) (p : Pool) : Prop :=
  (p.granted ++ p.avail).Nodup ∧ ∀ m ∈ p.granted ++ p.avail, m ∈ P

/-- A value that cannot collide with a granted port: if it is a numeric
port at all, the number lies outside the configured pool. -/
def SafeVal (P : List Nat) (v : EP) : Prop := ∀ m, v = EP.port m → m ∉ P

/-- All endpoint values currently bound on a node, ingress first. -/
def nodeVals (nd : Node) : List EP := bindingVals nd.ingress ++ bindingVals nd.egress

/-- Node-local planning invariant relative to the snapshot of the original
ingress values: every ingress value is an original value or a granted
port, every egress value is safe or a granted port, and every granted
port occurs at most once among all binding values of the node. -/
def NInv (P : List Nat) (snap : List EP) (granted : List Nat) (nd : Node) : Prop :=
  (∀ k ws, (k, ws) ∈ nd.ingress → ∀ w ∈ ws, w ∈ snap ∨ ∃ q ∈ granted, w = EP.port q) ∧
  (∀ o vs, (o, vs) ∈ nd.egress → ∀ v ∈ vs, SafeVal P v ∨ ∃ q ∈ granted, v = EP.port q) ∧
  (∀ q ∈ granted, (nodeVals nd).count (EP.port q) ≤ 1)

/-- The processed-egress classification: each egress name of os currently
binds either a list of granted ports or its single original safe value
whose endpoint does not occur among the original ingress values. -/
def EgProc (P : List Nat) (snap : List EP) (granted : List Nat) (os : List String)
    (nd : Node) : Prop :=
  ∀ o ∈ os, ∀ vs, aget nd.egress o = some vs →
    (∃ qs : List Nat, vs = qs.map EP.port ∧ ∀ q ∈ qs, q ∈ granted) ∨
    (∃ v, vs = [v] ∧ SafeVal P v ∧ v ∉ snap)

/-- The original ingress snapshot of node i, taken from the declared
graph. -/
def snapIn (g : Graph) (i : Nat) : List EP :=
  match g.nodes.get? i with
  | some nd => bindingVals nd.ingress
  | Option.none => []

/-- The binding-relevant fields of a node: everything except the label,
the name and the code. -/
def bindView (nd : Node) :
    List (String × List EP) × List (String × List EP) × Option String × Option String :=
  (nd.ingress, nd.egress, nd.stdinName, nd.stdoutName)

/-- Well-formedness of one declared node relative to the pool: all
declared endpoints avoid the pool, the binding dicts have unique keys, and
every declared egress binding is a singleton. -/
def NodeDecl (P : List Nat) (nd0 : Node) : Prop :=
  (∀ v ∈ nodeVals nd0, SafeVal P v) ∧
  (nd0.ingress.map Prod.fst).Nodup ∧
  (nd0.egress.map Prod.fst).Nodup ∧
  (∀ p ∈ nd0.egress, p.2.length = 1)

/-- The per-node postcondition of the binding-rewriting phases: the local
invariant holds, keys are unique, and every egress with an outgoing edge
binds either granted ports or its single original value, which does not
occur among the original ingress endpoints. -/
def NodeDone (g : Graph) (P : List Nat) (granted : List Nat) (i : Nat) (nd : Node) : Prop :=
  NInv P (snapIn g i) granted nd ∧
  (nd.ingress.map Prod.fst).Nodup ∧
  (nd.egress.map Prod.fst).Nodup ∧
  ∀ o, (∃ e ∈ g.edges, e.src = i ∧ e.srcOut = o) → ∀ vs, aget nd.egress o = some vs →
    (∃ qs : List Nat, vs = qs.map EP.port ∧ ∀ q ∈ qs, q ∈ granted) ∨
    (∃ v, vs = [v] ∧ SafeVal P v ∧ v ∉ snapIn g i)

/-- A node of the working state whose bindings still agree with its
declared original. -/
def OrigAt (g : Graph) (st : PState) (i : Nat) : Prop :=
  ∃ nd nd0, st.nodes.get? i = some nd ∧ g.nodes.get? i = some nd0 ∧
    bindView nd = bindView nd0

/-- One binding dict only loses values relative to another: same keys and
every current binding list is contained in the corresponding earlier
one. -/
def shrinksB (l2 l : List (String × List EP)) : Prop :=
  l2.map Prod.fst = l.map Prod.fst ∧
  ∀ k ws2, aget l2 k = some ws2 → ∃ ws, aget l k = some ws ∧ ws2 ⊆ ws

/-- A node whose bindings only lost values relative to another node. -/
def NodeShrinks (nd2 nd : Node) : Prop :=
  shrinksB nd2.ingress nd.ingress ∧ shrinksB nd2.egress nd.egress

/-! Inversion helpers for the Except plumbing. -/

lemma bind_ok {α β : Type} {x : Except PlanError α} {f : α → Except PlanError β} {b : β}
    (h : x.bind f = .ok b) : ∃ a, x = .ok a ∧ f a = .ok b := by
  cases x with
  | error e => cases h
  | ok a => exact ⟨a, rfl, h⟩

lemma ofOption_ok {α : Type} {o : Option α} {e : PlanError} {a : α}
    (h : ofOption o e = .ok a) : o = some a := by
  cases o with
  | none => cases h
  | some b => cases h; rfl

/-! General lemmas about deduplication and duplicate detection, used for
the sanity check. -/

lemma nodup_iff_dedup_length {l : List String} :
    l.Nodup ↔ l.dedup.length = l.length := by
  constructor
  · intro h
    rw [List.dedup_eq_self.mpr h]
  · intro h
    have hsub : List.Sublist l.dedup l := List.dedup_sublist l
    have : l.dedup = l := hsub.eq_of_length h
    rw [← this]
    exact l.nodup_dedup

lemma not_nodup_iff_two_le_count {l : List String} :
    ¬ l.Nodup ↔ ∃ t, 2 ≤ l.count t := by
  rw [List.nodup_iff_count_le_one]
  push_neg
  constructor
  · rintro ⟨t, ht⟩; exact ⟨t, ht⟩
  · rintro ⟨t, ht⟩; exact ⟨t, ht⟩

lemma sanityNode_eq_none_iff {g : Graph} {i : Nat} :
    sanityNode g i = Option.none ↔ (inNames g i).Nodup := by
  unfold sanityNode
  by_cases h1 : 1 < (inEdges g i).length
  · simp only [h1, if_true]
    by_cases h2 : ((inEdges g i).map (fun e => e.tgtIn)).dedup.length <
        (inEdges g i).length
    · simp only [h2, if_true]
      constructor
      · intro h; cases h
      · intro h
        exfalso
        have hlen := nodup_iff_dedup_length.mp h
        rw [inNames] at hlen
        rw [List.length_map] at hlen
        omega
    · simp only [h2, if_false]
      constructor
      · intro _
        have hle : ((inEdges g i).map (fun e => e.tgtIn)).dedup.length ≤
            ((inEdges g i).map (fun e => e.tgtIn)).length :=
          (List.dedup_sublist ((inEdges g i).map (fun e => e.tgtIn))).length_le
        rw [List.length_map] at hle
        rw [inNames, nodup_iff_dedup_length, List.length_map]
        omega
      · intro _; trivial
  · simp only [h1, if_false]
    constructor
    · intro _
      have hlen : (inNames g i).length ≤ 1 := by
        rw [inNames, List.length_map]; omega
      match hn : inNames g i with
      | [] => exact List.nodup_nil
      | [a] => simp
      | a :: b :: rest => rw [hn] at hlen; simp at hlen
    · intro _; trivial

lemma sanityNode_eq_some {g : Graph} {i : Nat} {e : PlanError}
    (h : sanityNode g i = some e) :
    1 < (inEdges g i).length ∧ ¬ (inNames g i).Nodup ∧
    e = .multipleProducersToInput
      (match g.nodes.get? i with | some nd => nd.name | Option.none => "")
      (inNames g i).dedup := by
  unfold sanityNode at h
  by_cases h1 : 1 < (inEdges g i).length
  · simp only [h1, if_true] at h
    by_cases h2 : ((inEdges g i).map (fun e => e.tgtIn)).dedup.length <
        (inEdges g i).length
    · simp only [h2, if_true] at h
      refine ⟨h1, ?_, ?_⟩
      · intro hn
        have hlen := nodup_iff_dedup_length.mp hn
        rw [inNames] at hlen
        rw [List.length_map] at hlen
        omega
      · cases h; rfl
    · simp only [h2, if_false] at h
      cases h
  · simp only [h1, if_false] at h
    cases h

lemma sanityCheckAux_ok {g : Graph} {L : List Nat}
    (h : ∀ i ∈ L, sanityNode g i = Option.none) :
    sanityCheckAux g L = .ok () := by
  induction L with
  | nil => rfl
  | cons i rest ih =>
    unfold sanityCheckAux
    rw [h i (List.mem_cons_self i rest)]
    exact ih (fun j hj => h j (List.mem_cons_of_mem i hj))

lemma sanityCheckAux_error {g : Graph} {L : List Nat} {e : PlanError}
    (h : sanityCheckAux g L = .error e) :
    ∃ i ∈ L, sanityNode g i = some e := by
  induction L with
  | nil => cases h
  | cons i rest ih =>
    unfold sanityCheckAux at h
    cases hi : sanityNode g i with
    | none =>
      rw [hi] at h
      obtain ⟨j, hj, hje⟩ := ih h
      exact ⟨j, List.mem_cons_of_mem i hj, hje⟩
    | some e1 =>
      rw [hi] at h
      cases h
      exact ⟨i, List.mem_cons_self i rest, hi⟩

lemma sanityCheckAux_not_ok {g : Graph} {L : List Nat} {i : Nat}
    (hi : i ∈ L) (h : sanityNode g i ≠ Option.none) :
    ∃ e, sanityCheckAux g L = .error e := by
  induction L with
  | nil => cases hi
  | cons j rest ih =>
    unfold sanityCheckAux
    cases hj : sanityNode g j with
    | none =>
      rcases List.mem_cons.mp hi with hij | hmem
      · subst hij; exact absurd hj h
      · exact ih hmem
    | some e1 => exact ⟨e1, rfl⟩

/-- C2: a graph has two edges into the same (node, ingressName) pair
exactly when some node has an ingress name with multiplicity at least two
among its incoming edges.  Without such a collision the sanity check
passes and planning proceeds to the remaining phases; with one, planning
fails with the multiple-producers error whose payload carries the name of
a colliding node and a name list containing every colliding ingress name
of that node, and whose rendered message suggests using octocat. -/
theorem C2_multiple_producers_check (g : Graph)
    (hwf : ∀ e ∈ g.edges, e.tgt < g.nodes.length) :
    ((¬ ∃ i t, 2 ≤ (inNames g i).count t) →
        sanityCheck g = .ok () ∧
        ∀ order logsDir pool,
          createPipeline g order logsDir pool = planAfterSanity g order logsDir pool) ∧
    ((∃ i t, 2 ≤ (inNames g i).count t) →
        ∃ i nd names, g.nodes.get? i = some nd ∧
          (∃ t, 2 ≤ (inNames g i).count t) ∧
          (∀ t, 2 ≤ (inNames g i).count t → t ∈ names) ∧
          (∀ t ∈ names, t ∈ inNames g i) ∧
          errorMessage (.multipleProducersToInput nd.name names) =
            "Multiple incoming outputs: [" ++ String.intercalate " " names ++
              "] to an input of node " ++ nd.name ++ ". Did you mean to use octocat?" ∧
          (∀ order logsDir pool,
            createPipeline g order logsDir pool =
              .error (.multipleProducersToInput nd.name names))) := by
  constructor
  · intro hno
    have hok : sanityCheck g = .ok () := by
      apply sanityCheckAux_ok
      intro i _
      rw [sanityNode_eq_none_iff]
      by_contra hnd
      obtain ⟨t, ht⟩ := not_nodup_iff_two_le_count.mp hnd
      exact hno ⟨i, t, ht⟩
    refine ⟨hok, ?_⟩
    intro order logsDir pool
    unfold createPipeline
    rw [hok]
    rfl
  · rintro ⟨i0, t0, hc⟩
    have hmem : t0 ∈ inNames g i0 := by
      have : 0 < (inNames g i0).count t0 := by omega
      exact List.count_pos_iff.mp this
    have hi0 : i0 < g.nodes.length := by
      rw [inNames] at hmem
      obtain ⟨e, he, rfl⟩ := List.mem_map.mp hmem
      rw [inEdges] at he
      have := List.mem_filter.mp he
      have htgt : e.tgt = i0 := by
        have := this.2
        simpa using this
      rw [← htgt]
      exact hwf e this.1
    have hne : sanityNode g i0 ≠ Option.none := by
      rw [Ne, sanityNode_eq_none_iff, not_nodup_iff_two_le_count]
      exact ⟨t0, hc⟩
    obtain ⟨e, herr⟩ :=
      sanityCheckAux_not_ok (List.mem_range.mpr hi0) hne
    obtain ⟨j, hj, hje⟩ := sanityCheckAux_error herr
    obtain ⟨hlen, hnd, hestruct⟩ := sanityNode_eq_some hje
    have hjlt : j < g.nodes.length := List.mem_range.mp hj
    obtain ⟨nd, hnth⟩ : ∃ nd, g.nodes.get? j = some nd := by
      rw [List.get?_eq_getElem?]
      exact ⟨g.nodes[j], List.getElem?_eq_getElem hjlt⟩
    rw [hnth] at hestruct
    refine ⟨j, nd, (inNames g j).dedup, hnth, ?_, ?_, ?_, rfl, ?_⟩
    · exact not_nodup_iff_two_le_count.mp hnd
    · intro t ht
      rw [List.mem_dedup]
      have : 0 < (inNames g j).count t := by omega
      exact List.count_pos_iff.mp this
    · intro t ht
      exact List.mem_dedup.mp ht
    · intro order logsDir pool
      unfold createPipeline sanityCheck
      rw [herr, hestruct]
      rfl

/-! Assoc-list lemmas for the binding dicts. -/

lemma aget_cons_pos {p : String × List EP} {rest : List (String × List EP)}
    {k : String} (hp : (p.1 == k) = true) : aget (p :: rest) k = some p.2 := by
  have hf : List.find? (fun q => q.1 == k) (p :: rest) = some p := by
    apply List.find?_cons_of_pos
    exact hp
  unfold aget
  rw [hf]
  rfl

lemma aget_cons_neg {p : String × List EP} {rest : List (String × List EP)}
    {k : String} (hp : ¬(p.1 == k) = true) : aget (p :: rest) k = aget rest k := by
  have hf : List.find? (fun q => q.1 == k) (p :: rest) =
      List.find? (fun q => q.1 == k) rest := by
    apply List.find?_cons_of_neg
    exact hp
  unfold aget
  rw [hf]

lemma aset_cons_pos {p : String × List EP} {rest : List (String × List EP)}
    {k : String} {v : List EP} (hp : (p.1 == k) = true) :
    aset (p :: rest) k v = (p.1, v) :: aset rest k v := by
  unfold aset
  rw [List.map_cons, if_pos hp]

lemma aset_cons_neg {p : String × List EP} {rest : List (String × List EP)}
    {k : String} {v : List EP} (hp : ¬(p.1 == k) = true) :
    aset (p :: rest) k v = p :: aset rest k v := by
  unfold aset
  rw [List.map_cons, if_neg hp]

lemma bindingVals_cons {p : String × List EP} {rest : List (String × List EP)} :
    bindingVals (p :: rest) = p.2 ++ bindingVals rest := by
  unfold bindingVals
  rw [List.map_cons, List.flatten_cons]

lemma aset_keys (l : List (String × List EP)) (k : String) (v : List EP) :
    (aset l k v).map Prod.fst = l.map Prod.fst := by
  induction l with
  | nil => rfl
  | cons p rest ih =>
    by_cases hp : p.1 == k
    · rw [aset_cons_pos hp, List.map_cons, List.map_cons, ih]
    · rw [aset_cons_neg hp, List.map_cons, List.map_cons, ih]

lemma aget_aset_self {l : List (String × List EP)} {k : String} {ws : List EP}
    (v : List EP) (h : aget l k = some ws) : aget (aset l k v) k = some v := by
  induction l with
  | nil => cases h
  | cons p rest ih =>
    by_cases hp : p.1 == k
    · rw [aset_cons_pos hp]
      exact aget_cons_pos hp
    · rw [aget_cons_neg hp] at h
      rw [aset_cons_neg hp, aget_cons_neg hp]
      exact ih h

lemma aget_aset_ne {l : List (String × List EP)} {k k2 : String} (v : List EP)
    (hne : k2 ≠ k) : aget (aset l k v) k2 = aget l k2 := by
  induction l with
  | nil => rfl
  | cons p rest ih =>
    by_cases hp : p.1 == k
    · have hpk : p.1 = k := beq_iff_eq.mp hp
      have hneq : ¬(p.1 == k2) = true := by
        rw [beq_iff_eq, hpk]
        exact fun he => hne he.symm
      rw [aset_cons_pos hp]
      rw [@aget_cons_neg (p.1, v) (aset rest k v) k2 hneq, aget_cons_neg hneq]
      exact ih
    · rw [aset_cons_neg hp]
      by_cases hc : p.1 == k2
      · rw [aget_cons_pos hc, aget_cons_pos hc]
      · rw [aget_cons_neg hc, aget_cons_neg hc]
        exact ih

lemma aget_absent {l : List (String × List EP)} {k : String}
    (h : aget l k = Option.none) (v : List EP) : aset l k v = l := by
  induction l with
  | nil => rfl
  | cons p rest ih =>
    by_cases hp : p.1 == k
    · rw [aget_cons_pos hp] at h
      cases h
    · rw [aget_cons_neg hp] at h
      rw [aset_cons_neg hp, ih h]

lemma aget_mem {l : List (String × List EP)} {k : String} {ws : List EP}
    (h : aget l k = some ws) : (k, ws) ∈ l := by
  induction l with
  | nil => cases h
  | cons p rest ih =>
    by_cases hp : p.1 == k
    · rw [aget_cons_pos hp] at h
      have hpk : p.1 = k := beq_iff_eq.mp hp
      injection h with h2
      have hpe : p = (k, ws) := by
        cases p
        simp only at hpk h2
        rw [hpk, h2]
      rw [← hpe]
      exact List.mem_cons_self _ _
    · rw [aget_cons_neg hp] at h
      exact List.mem_cons_of_mem _ (ih h)

lemma mem_aget {l : List (String × List EP)} {k : String} {ws : List EP}
    (hnd : (l.map Prod.fst).Nodup) (h : (k, ws) ∈ l) : aget l k = some ws := by
  induction l with
  | nil => cases h
  | cons p rest ih =>
    rw [List.map_cons] at hnd
    have hnd1 : p.1 ∉ rest.map Prod.fst := (List.nodup_cons.mp hnd).1
    have hnd2 : (rest.map Prod.fst).Nodup := (List.nodup_cons.mp hnd).2
    rcases List.mem_cons.mp h with heq | hmem
    · rw [← heq]
      exact aget_cons_pos (by simp)
    · have hk : k ∈ rest.map Prod.fst := by
        rw [List.mem_map]
        exact ⟨(k, ws), hmem, rfl⟩
      have hpk : ¬(p.1 == k) = true := by
        rw [beq_iff_eq]
        intro he
        rw [he] at hnd1
        exact hnd1 hk
      rw [aget_cons_neg hpk]
      exact ih hnd2 hmem

lemma bindingVals_of_mem {l : List (String × List EP)} {k : String} {ws : List EP}
    {w : EP} (h : (k, ws) ∈ l) (hw : w ∈ ws) : w ∈ bindingVals l := by
  unfold bindingVals
  rw [List.mem_flatten]
  exact ⟨ws, List.mem_map.mpr ⟨(k, ws), h, rfl⟩, hw⟩

lemma mem_bindingVals {l : List (String × List EP)} {w : EP}
    (h : w ∈ bindingVals l) : ∃ k ws, (k, ws) ∈ l ∧ w ∈ ws := by
  unfold bindingVals at h
  rw [List.mem_flatten] at h
  obtain ⟨ws, hws, hw⟩ := h
  rw [List.mem_map] at hws
  obtain ⟨p, hp, hpe⟩ := hws
  refine ⟨p.1, ws, ?_, hw⟩
  have hpe2 : p = (p.1, ws) := by
    cases p
    simpa using hpe
  rw [← hpe2]
  exact hp

lemma mem_aset {l : List (String × List EP)} {k : String} {v : List EP}
    {k2 : String} {ws : List EP} (h : (k2, ws) ∈ aset l k v) :
    (k2, ws) ∈ l ∨ ws = v := by
  unfold aset at h
  rw [List.mem_map] at h
  obtain ⟨p, hp, hpe⟩ := h
  by_cases hc : p.1 == k
  · rw [if_pos hc] at hpe
    right
    have h2 := congrArg Prod.snd hpe
    simpa using h2.symm
  · rw [if_neg hc] at hpe
    left
    rw [hpe] at hp
    exact hp

lemma bindingVals_aset_perm {l : List (String × List EP)} {k : String}
    {ws : List EP} (v : List EP) (hnd : (l.map Prod.fst).Nodup)
    (h : aget l k = some ws) :
    (bindingVals (aset l k v) ++ ws).Perm (bindingVals l ++ v) := by
  induction l with
  | nil => cases h
  | cons p rest ih =>
    rw [List.map_cons] at hnd
    have hnd1 : p.1 ∉ rest.map Prod.fst := (List.nodup_cons.mp hnd).1
    have hnd2 : (rest.map Prod.fst).Nodup := (List.nodup_cons.mp hnd).2
    by_cases hp : p.1 == k
    · rw [aget_cons_pos hp] at h
      injection h with hws
      have hpk : p.1 = k := beq_iff_eq.mp hp
      have habs : aget rest k = Option.none := by
        cases hr : aget rest k with
        | none => rfl
        | some ws2 =>
          exfalso
          apply hnd1
          rw [hpk]
          rw [List.mem_map]
          exact ⟨(k, ws2), aget_mem hr, rfl⟩
      rw [aset_cons_pos hp, aget_absent habs v]
      rw [bindingVals_cons, bindingVals_cons]
      rw [← hws]
      rw [List.append_assoc]
      exact List.perm_append_comm.trans (List.Perm.append_right v List.perm_append_comm)
    · rw [aget_cons_neg hp] at h
      rw [aset_cons_neg hp, bindingVals_cons, bindingVals_cons]
      rw [List.append_assoc, List.append_assoc]
      exact List.Perm.append_left p.2 (ih hnd2 h)

lemma bindingVals_aset_count {l : List (String × List EP)} {k : String}
    {ws : List EP} (v : List EP) (x : EP) (hnd : (l.map Prod.fst).Nodup)
    (h : aget l k = some ws) :
    (bindingVals (aset l k v)).count x + ws.count x =
      (bindingVals l).count x + v.count x := by
  have hp := bindingVals_aset_perm v hnd h
  have hc := hp.count_eq x
  rw [List.count_append, List.count_append] at hc
  exact hc

/-! Counter lemmas. -/

lemma bumpCounter_keys (acc : List (String × Nat)) (k : String) :
    (bumpCounter acc k).map Prod.fst =
      if k ∈ acc.map Prod.fst then acc.map Prod.fst else acc.map Prod.fst ++ [k] := by
  unfold bumpCounter
  by_cases hc : acc.any (fun p => p.1 == k)
  · rw [if_pos hc]
    have hm : k ∈ acc.map Prod.fst := by
      rw [List.any_eq_true] at hc
      obtain ⟨p, hp, hpe⟩ := hc
      rw [List.mem_map]
      exact ⟨p, hp, beq_iff_eq.mp hpe⟩
    rw [if_pos hm]
    rw [List.map_map]
    apply List.map_congr_left
    intro p _
    simp only [Function.comp_apply]
    by_cases hpk : p.1 == k
    · rw [if_pos hpk]
    · rw [if_neg hpk]
  · rw [if_neg hc]
    have hm : k ∉ acc.map Prod.fst := by
      intro hk
      apply hc
      rw [List.any_eq_true]
      rw [List.mem_map] at hk
      obtain ⟨p, hp, hpe⟩ := hk
      exact ⟨p, hp, beq_iff_eq.mpr hpe⟩
    rw [if_neg hm, List.map_append]
    rfl

lemma counterFromAux_keys (es : List Edge) :
    ∀ acc : List (String × Nat),
      (acc.map Prod.fst).Nodup →
      ((es.foldl (fun a e => bumpCounter a e.srcOut) acc).map Prod.fst).Nodup ∧
      (∀ o, o ∈ (es.foldl (fun a e => bumpCounter a e.srcOut) acc).map Prod.fst ↔
        o ∈ acc.map Prod.fst ∨ ∃ e ∈ es, e.srcOut = o) := by
  induction es with
  | nil =>
    intro acc hnd
    refine ⟨hnd, fun o => ?_⟩
    simp
  | cons e rest ih =>
    intro acc hnd
    rw [List.foldl_cons]
    have hbk := bumpCounter_keys acc e.srcOut
    have hbnd : ((bumpCounter acc e.srcOut).map Prod.fst).Nodup := by
      rw [hbk]
      by_cases hm : e.srcOut ∈ acc.map Prod.fst
      · rw [if_pos hm]; exact hnd
      · rw [if_neg hm]
        rw [List.nodup_append]
        exact ⟨hnd, List.nodup_singleton _, by simpa using hm⟩
    obtain ⟨h1, h2⟩ := ih (bumpCounter acc e.srcOut) hbnd
    refine ⟨h1, fun o => ?_⟩
    rw [h2 o, hbk]
    by_cases hm : e.srcOut ∈ acc.map Prod.fst
    · rw [if_pos hm]
      constructor
      · rintro (h | h)
        · exact Or.inl h
        · obtain ⟨e2, he2, ho⟩ := h
          exact Or.inr ⟨e2, List.mem_cons_of_mem _ he2, ho⟩
      · rintro (h | ⟨e2, he2, ho⟩)
        · exact Or.inl h
        · rcases List.mem_cons.mp he2 with he | he
          · subst he
            exact Or.inl (ho ▸ hm)
          · exact Or.inr ⟨e2, he, ho⟩
    · rw [if_neg hm]
      constructor
      · rintro (h | h)
        · rcases List.mem_append.mp h with h | h
          · exact Or.inl h
          · rw [List.mem_singleton] at h
            exact Or.inr ⟨e, List.mem_cons_self _ _, h.symm⟩
        · obtain ⟨e2, he2, ho⟩ := h
          exact Or.inr ⟨e2, List.mem_cons_of_mem _ he2, ho⟩
      · rintro (h | ⟨e2, he2, ho⟩)
        · exact Or.inl (List.mem_append_left _ h)
        · rcases List.mem_cons.mp he2 with he | he
          · subst he
            exact Or.inl (List.mem_append_right _ (List.mem_singleton.mpr ho.symm))
          · exact Or.inr ⟨e2, he, ho⟩

lemma counterFrom_keys_nodup (es : List Edge) :
    ((counterFrom es).map Prod.fst).Nodup :=
  (counterFromAux_keys es [] List.nodup_nil).1

lemma counterFrom_keys_iff (es : List Edge) (o : String) :
    o ∈ (counterFrom es).map Prod.fst ↔ ∃ e ∈ es, e.srcOut = o := by
  have h2 := (counterFromAux_keys es [] List.nodup_nil).2 o
  unfold counterFrom
  rw [h2]
  simp

/-! Labels and the per-edge log naming. -/

lemma setLabel_get {nodes : List Node} {i : Nat} {lbl : String} (j : Nat) :
    (setLabel nodes i lbl).get? j =
      if j = i then (nodes.get? i).map (fun nd => { nd with label := lbl })
      else nodes.get? j := by
  cases hg : nodes.get? i with
  | none =>
    have hset : setLabel nodes i lbl = nodes := by
      unfold setLabel
      rw [hg]
    rw [hset]
    by_cases hj : j = i
    · subst hj
      rw [if_pos rfl, hg]
      rfl
    · rw [if_neg hj]
  | some nd =>
    have hset : setLabel nodes i lbl = nodes.set i { nd with label := lbl } := by
      unfold setLabel
      rw [hg]
    rw [hset]
    have hlt : i < nodes.length := by
      by_contra hge
      push_neg at hge
      rw [List.get?_eq_getElem?, List.getElem?_eq_none hge] at hg
      cases hg
    by_cases hj : j = i
    · subst hj
      rw [if_pos rfl]
      rw [List.get?_eq_getElem? (nodes.set j { nd with label := lbl }) j]
      rw [List.getElem?_set_eq_of_lt _ hlt]
      rfl
    · rw [if_neg hj]
      rw [List.get?_eq_getElem? (nodes.set i { nd with label := lbl }) j,
          List.get?_eq_getElem? nodes j]
      exact List.getElem?_set_ne (fun he => hj he.symm)

lemma labelNodesAux_get_ne : ∀ {L : List (Nat × Nat)} {nodes : List Node} {j : Nat},
    (∀ p ∈ L, p.2 ≠ j) → (labelNodesAux L nodes).get? j = nodes.get? j := by
  intro L
  induction L with
  | nil => intro nodes j _; rfl
  | cons p rest ih =>
    intro nodes j hne
    obtain ⟨k, i⟩ := p
    unfold labelNodesAux
    rw [ih (fun q hq => hne q (List.mem_cons_of_mem _ hq))]
    rw [setLabel_get]
    rw [if_neg (fun hj => hne (k, i) (List.mem_cons_self _ _) hj.symm)]

lemma labelNodesAux_get_mem : ∀ {L : List (Nat × Nat)} {nodes : List Node} {k j : Nat},
    (k, j) ∈ L → (L.map Prod.snd).Nodup →
    (labelNodesAux L nodes).get? j =
      (nodes.get? j).map (fun nd => { nd with label := zfill2 k }) := by
  intro L
  induction L with
  | nil => intro nodes k j h _; cases h
  | cons p rest ih =>
    intro nodes k j hmem hnodup
    obtain ⟨k0, i0⟩ := p
    rw [List.map_cons] at hnodup
    have hnd1 : i0 ∉ rest.map Prod.snd := (List.nodup_cons.mp hnodup).1
    have hnd2 : (rest.map Prod.snd).Nodup := (List.nodup_cons.mp hnodup).2
    unfold labelNodesAux
    rcases List.mem_cons.mp hmem with heq | hrest
    · cases heq
      have hne2 : ∀ p ∈ rest, p.2 ≠ j := by
        intro q hq hqj
        apply hnd1
        rw [← hqj]
        exact List.mem_map_of_mem Prod.snd hq
      rw [labelNodesAux_get_ne hne2]
      rw [setLabel_get, if_pos rfl]
    · have hij : i0 ≠ j := by
        intro he
        apply hnd1
        rw [he]
        exact List.mem_map_of_mem Prod.snd hrest
      rw [ih hrest hnd2]
      rw [setLabel_get, if_neg (fun hj => hij hj.symm)]

lemma labelNodes_get {order : List Nat} {nodes : List Node} {k i : Nat}
    (hnodup : order.Nodup) (hki : (k, i) ∈ order.enum) :
    (labelNodes order nodes).get? i =
      (nodes.get? i).map (fun nd => { nd with label := zfill2 k }) := by
  unfold labelNodes
  apply labelNodesAux_get_mem hki
  rw [List.enum_map_snd]
  exact hnodup

lemma addEdge_ok {g : Graph} {src tgt : Nat} {so ti : String} {ty : EdgeType}
    {g' : Graph} (h : addEdge g src so tgt ti ty = .ok g') :
    g'.nodes = g.nodes ∧ g'.edges = g.edges ++
      [{ src := src, tgt := tgt, srcOut := so, tgtIn := ti
       , name := so ++ "2" ++ ti, etype := ty }] := by
  unfold addEdge at h
  obtain ⟨s, h1, h⟩ := bind_ok h
  obtain ⟨t, h2, h⟩ := bind_ok h
  by_cases he : (s.egress.find? (fun p => p.1 == so)).isNone
  · rw [if_pos he] at h
    cases h
  · rw [if_neg he] at h
    by_cases hi : (t.ingress.find? (fun p => p.1 == ti)).isNone
    · rw [if_pos hi] at h
      cases h
    · rw [if_neg hi] at h
      cases h
      exact ⟨rfl, rfl⟩

lemma teeArgsFor_eq (etype : EdgeType) (edgeName logName : String) :
    teeArgsFor etype edgeName logName =
      match etype with
      | EdgeType.binary => [TeeSink.dataFile (logName ++ ".data")]
      | EdgeType.text => [TeeSink.tsLog "[%Y-%m-%d %H:%M:%S]" (logName ++ ".log")]
      | EdgeType.none => [TeeSink.plainLog (logName ++ ".log")] := by
  cases etype <;> rfl

lemma labelOf_eq_get {st : PState} {i : Nat} :
    labelOf st i = ((st.nodes.map Node.label).get? i).getD "" := by
  unfold labelOf
  rw [List.get?_eq_getElem?, List.get?_eq_getElem?, List.getElem?_map]
  cases st.nodes[i]? <;> rfl

lemma labelOf_congr {st st' : PState}
    (h : st'.nodes.map Node.label = st.nodes.map Node.label) (i : Nat) :
    labelOf st' i = labelOf st i := by
  rw [labelOf_eq_get, labelOf_eq_get, h]

lemma set_map_label {ns : List Node} {i : Nat} {nd nd' : Node}
    (h : ns.get? i = some nd) (hl : nd'.label = nd.label) :
    (ns.set i nd').map Node.label = ns.map Node.label := by
  have hlt : i < ns.length := by
    by_contra hge
    push_neg at hge
    rw [List.get?_eq_getElem?, List.getElem?_eq_none hge] at h
    cases h
  apply List.ext_getElem?
  intro j
  rw [List.getElem?_map, List.getElem?_map]
  by_cases hj : i = j
  · subst hj
    rw [List.getElem?_set_eq_of_lt _ hlt]
    rw [List.get?_eq_getElem?] at h
    rw [h]
    simp [hl]
  · rw [List.getElem?_set_ne hj]

/-- What Pipeliner._createPipes emits for one edge: the tee argument of
the job is determined by the edge type and by the log name built from the
labels of the two endpoint nodes and the edge name; the pops leave every
node label unchanged. -/
lemma pipeEdge_spec {logsDir : String} {st : PState} {e : Edge} {st' : PState}
    {job : PipeJob} (h : pipeEdge logsDir st e = .ok (st', job)) :
    job.tees = teeArgsFor e.etype e.name
      (logsDir ++ "/l_" ++ labelOf st e.src ++ "-" ++ labelOf st e.tgt ++ "-" ++ e.name) ∧
    st'.nodes.map Node.label = st.nodes.map Node.label := by
  unfold pipeEdge at h
  obtain ⟨s, h1, h⟩ := bind_ok h
  obtain ⟨t, h2, h⟩ := bind_ok h
  obtain ⟨eb, h3, h⟩ := bind_ok h
  obtain ⟨rL, h4, h⟩ := bind_ok h
  obtain ⟨t1, h5, h⟩ := bind_ok h
  obtain ⟨ib, h6, h⟩ := bind_ok h
  obtain ⟨rC, h7, h⟩ := bind_ok h
  cases h
  have hs := ofOption_ok h1
  have ht := ofOption_ok h2
  have ht1 := ofOption_ok h5
  constructor
  · unfold labelOf
    rw [hs, ht]
  · have hstep1 : (st.nodes.set e.src
        { s with egress := aset s.egress e.srcOut rL.2 }).map Node.label =
        st.nodes.map Node.label := set_map_label hs rfl
    calc ((st.nodes.set e.src { s with egress := aset s.egress e.srcOut rL.2 }).set e.tgt
            { t1 with ingress := aset t1.ingress e.tgtIn rC.2 }).map Node.label
        = (st.nodes.set e.src
            { s with egress := aset s.egress e.srcOut rL.2 }).map Node.label :=
          set_map_label ht1 rfl
      _ = st.nodes.map Node.label := hstep1

/-- Pipeliner._createPipes over the whole edge list: one job per edge, in
edge order, each teeing into the log file determined by the edge type, the
node labels and the edge name. -/
lemma createPipesAux_spec {logsDir : String} :
    ∀ {es : List Edge} {st st' : PState} {jobs : List PipeJob},
      createPipesAux logsDir es st = .ok (st', jobs) →
      jobs.length = es.length ∧
      st'.nodes.map Node.label = st.nodes.map Node.label ∧
      ∀ k e, es.get? k = some e →
        ∃ job, jobs.get? k = some job ∧
          job.tees = teeArgsFor e.etype e.name
            (logsDir ++ "/l_" ++ labelOf st e.src ++ "-" ++ labelOf st e.tgt ++ "-" ++ e.name) := by
  intro es
  induction es with
  | nil =>
    intro st st' jobs h
    unfold createPipesAux at h
    cases h
    exact ⟨rfl, rfl, fun k e hk => by cases k <;> cases hk⟩
  | cons e0 rest ih =>
    intro st st' jobs h
    unfold createPipesAux at h
    obtain ⟨r1, h1, h⟩ := bind_ok h
    obtain ⟨r2, h2, h⟩ := bind_ok h
    cases h
    obtain ⟨htee0, hlbl0⟩ := pipeEdge_spec h1
    obtain ⟨hlen, hlblr, hspecr⟩ := ih h2
    refine ⟨by simp [hlen], by rw [hlblr, hlbl0], ?_⟩
    intro k e hk
    cases k with
    | zero =>
      cases hk
      exact ⟨r1.2, rfl, htee0⟩
    | succ k1 =>
      obtain ⟨job, hj, hjt⟩ := hspecr k1 e hk
      refine ⟨job, hj, ?_⟩
      rw [hjt]
      rw [labelOf_congr hlbl0, labelOf_congr hlbl0]

/-! Pool evolution: every planner phase only removes ports from the tail
of the available list and appends them to the ghost list of granted
ports. -/

lemma poolEvolves_refl (p : Pool) : poolEvolves p p :=
  ⟨⟨[], by simp⟩, ⟨[], by simp⟩, List.Perm.refl _⟩

lemma poolEvolves_trans {p q r : Pool} (h1 : poolEvolves p q)
    (h2 : poolEvolves q r) : poolEvolves p r := by
  obtain ⟨⟨d1, hg1⟩, ⟨a1, ha1⟩, hp1⟩ := h1
  obtain ⟨⟨d2, hg2⟩, ⟨a2, ha2⟩, hp2⟩ := h2
  exact ⟨⟨d1 ++ d2, by rw [hg2, hg1, List.append_assoc]⟩,
         ⟨a2 ++ a1, by rw [ha1, ha2, List.append_assoc]⟩,
         hp2.trans hp1⟩

lemma acquire_empty {p : Pool} (h : p.avail = []) :
    acquire p = .error .exhaustedPool := by
  unfold acquire
  rw [h]
  rfl

lemma acquire_ok {p : Pool} {v : Nat} {q : Pool} (h : acquire p = .ok (v, q)) :
    q.avail ++ [v] = p.avail ∧ q.granted = p.granted ++ [v] ∧ v ∈ p.avail := by
  unfold acquire at h
  obtain ⟨w, h1, h2⟩ := bind_ok h
  cases h2
  have hl := ofOption_ok h1
  have hne : p.avail ≠ [] := by
    intro he
    rw [he] at hl
    cases hl
  have h2 := List.getLast?_eq_getLast p.avail hne
  rw [hl] at h2
  injection h2 with h3
  have happ : p.avail.dropLast ++ [v] = p.avail := by
    rw [h3]
    exact List.dropLast_append_getLast hne
  refine ⟨happ, rfl, ?_⟩
  rw [← happ]
  exact List.mem_append_right _ (List.mem_singleton.mpr rfl)

lemma acquire_evolves {p : Pool} {v : Nat} {q : Pool}
    (h : acquire p = .ok (v, q)) : poolEvolves p q := by
  obtain ⟨ha, hg, _⟩ := acquire_ok h
  refine ⟨⟨[v], hg⟩, ⟨[v], ha.symm⟩, ?_⟩
  have hl : q.granted ++ q.avail = p.granted ++ ([v] ++ q.avail) := by
    rw [hg, List.append_assoc]
  rw [hl, ← ha]
  exact List.Perm.append_left _ List.perm_append_comm

lemma acquireN_ok {n : Nat} : ∀ {p vs q}, acquireN n p = .ok (vs, q) →
    poolEvolves p q ∧ q.granted = p.granted ++ vs ∧ vs.length = n := by
  induction n with
  | zero =>
    intro p vs q h
    unfold acquireN at h
    cases h
    exact ⟨poolEvolves_refl _, by simp, rfl⟩
  | succ m ih =>
    intro p vs q h
    unfold acquireN at h
    obtain ⟨r1, h1, h⟩ := bind_ok h
    obtain ⟨r2, h2, h⟩ := bind_ok h
    cases h
    obtain ⟨v, p1⟩ := r1
    obtain ⟨vs2, p2⟩ := r2
    obtain ⟨hev, hg, hlen⟩ := ih h2
    obtain ⟨_, hg1, _⟩ := acquire_ok h1
    refine ⟨poolEvolves_trans (acquire_evolves h1) hev, ?_, by simp [hlen]⟩
    rw [hg, hg1, List.append_assoc]
    rfl

lemma proxyStep_evolves {inputTypes : List EP} {nd : Node} {pool : Pool}
    {oc : String × Nat} {nd' : Node} {pool' : Pool} {js : List ProxyJob}
    (h : proxyStep inputTypes nd pool oc = .ok (nd', pool', js)) :
    poolEvolves pool pool' := by
  unfold proxyStep at h
  obtain ⟨binding, hb, h⟩ := bind_ok h
  obtain ⟨outputType, ho, h⟩ := bind_ok h
  by_cases hmem : outputType ∈ inputTypes
  · rw [if_pos hmem] at h
    obtain ⟨rOut, h1, h⟩ := bind_ok h
    obtain ⟨rIn, h2, h⟩ := bind_ok h
    obtain ⟨ipair, h3, h⟩ := bind_ok h
    cases h
    exact poolEvolves_trans (acquireN_ok h1).1 (acquire_evolves h2)
  · rw [if_neg hmem] at h
    by_cases hfan : 1 < oc.2 ∧ outputType ≠ EP.stdout
    · rw [if_pos hfan] at h
      obtain ⟨rs, h1, h⟩ := bind_ok h
      cases h
      exact (acquireN_ok h1).1
    · rw [if_neg hfan] at h
      cases h
      exact poolEvolves_refl _

lemma proxyOcs_evolves {inputTypes : List EP} :
    ∀ {ocs : List (String × Nat)} {nd : Node} {pool : Pool} {nd' : Node}
      {pool' : Pool} {js : List ProxyJob},
      proxyOcs inputTypes ocs nd pool = .ok (nd', pool', js) →
      poolEvolves pool pool' := by
  intro ocs
  induction ocs with
  | nil =>
    intro nd pool nd' pool' js h
    unfold proxyOcs at h
    cases h
    exact poolEvolves_refl _
  | cons oc rest ih =>
    intro nd pool nd' pool' js h
    unfold proxyOcs at h
    obtain ⟨r1, h1, h⟩ := bind_ok h
    obtain ⟨r2, h2, h⟩ := bind_ok h
    cases h
    exact poolEvolves_trans (proxyStep_evolves h1) (ih h2)

lemma proxyNode_evolves {g : Graph} {st : PState} {i : Nat} {st' : PState}
    {js : List ProxyJob} (h : proxyNode g st i = .ok (st', js)) :
    poolEvolves st.pool st'.pool := by
  unfold proxyNode at h
  obtain ⟨nd, h1, h⟩ := bind_ok h
  obtain ⟨r, h2, h⟩ := bind_ok h
  cases h
  exact proxyOcs_evolves h2

lemma createProxiesAux_evolves {g : Graph} :
    ∀ {order : List Nat} {st st' : PState} {js : List ProxyJob},
      createProxiesAux g order st = .ok (st', js) →
      poolEvolves st.pool st'.pool := by
  intro order
  induction order with
  | nil =>
    intro st st' js h
    unfold createProxiesAux at h
    cases h
    exact poolEvolves_refl _
  | cons i rest ih =>
    intro st st' js h
    unfold createProxiesAux at h
    obtain ⟨r1, h1, h⟩ := bind_ok h
    obtain ⟨r2, h2, h⟩ := bind_ok h
    cases h
    exact poolEvolves_trans (proxyNode_evolves h1) (ih h2)

lemma execStdin_evolves {nd : Node} {pool : Pool} {nd' : Node} {pool' : Pool}
    {sp : Option Nat} (h : execStdin nd pool = .ok (nd', pool', sp)) :
    poolEvolves pool pool' := by
  unfold execStdin at h
  cases hk : nd.stdinName with
  | none =>
    rw [hk] at h
    cases h
    exact poolEvolves_refl _
  | some k =>
    rw [hk] at h
    obtain ⟨r, h1, h⟩ := bind_ok h
    cases h
    exact acquire_evolves h1

lemma execNode_evolves {g : Graph} {logsDir : String} {st : PState} {i : Nat}
    {st' : PState} {c : LocalCmd} (h : execNode g logsDir st i = .ok (st', c)) :
    poolEvolves st.pool st'.pool := by
  unfold execNode at h
  obtain ⟨nd, h0, h⟩ := bind_ok h
  obtain ⟨r1, h1, h⟩ := bind_ok h
  obtain ⟨nd1, pool1, sp⟩ := r1
  have hev1 : poolEvolves st.pool pool1 := execStdin_evolves h1
  by_cases hef : (g.edges.filter
      (fun e => e.src == i && nd.stdoutName == some e.srcOut)).length = 0
  · rw [if_pos hef] at h
    cases h
    exact hev1
  · rw [if_neg hef] at h
    obtain ⟨s, h2, h⟩ := bind_ok h
    obtain ⟨r2, h3, h⟩ := bind_ok h
    cases h
    exact poolEvolves_trans hev1 (acquireN_ok h3).1

lemma execAll_evolves {g : Graph} {logsDir : String} :
    ∀ {order : List Nat} {st st' : PState} {cs : List LocalCmd},
      execAll g logsDir order st = .ok (st', cs) →
      poolEvolves st.pool st'.pool := by
  intro order
  induction order with
  | nil =>
    intro st st' cs h
    unfold execAll at h
    cases h
    exact poolEvolves_refl _
  | cons i rest ih =>
    intro st st' cs h
    unfold execAll at h
    obtain ⟨r1, h1, h⟩ := bind_ok h
    obtain ⟨r2, h2, h⟩ := bind_ok h
    cases h
    exact poolEvolves_trans (execNode_evolves h1) (ih h2)

lemma pipeEdge_pool {logsDir : String} {st : PState} {e : Edge} {st' : PState}
    {j : PipeJob} (h : pipeEdge logsDir st e = .ok (st', j)) :
    st'.pool = st.pool := by
  unfold pipeEdge at h
  obtain ⟨s, h1, h⟩ := bind_ok h
  obtain ⟨t, h2, h⟩ := bind_ok h
  obtain ⟨eb, h3, h⟩ := bind_ok h
  obtain ⟨rL, h4, h⟩ := bind_ok h
  obtain ⟨t1, h5, h⟩ := bind_ok h
  obtain ⟨ib, h6, h⟩ := bind_ok h
  obtain ⟨rC, h7, h⟩ := bind_ok h
  cases h
  rfl

lemma createPipesAux_pool {logsDir : String} :
    ∀ {es : List Edge} {st st' : PState} {js : List PipeJob},
      createPipesAux logsDir es st = .ok (st', js) →
      st'.pool = st.pool := by
  intro es
  induction es with
  | nil =>
    intro st st' js h
    unfold createPipesAux at h
    cases h
    rfl
  | cons e rest ih =>
    intro st st' js h
    unfold createPipesAux at h
    obtain ⟨r1, h1, h⟩ := bind_ok h
    obtain ⟨r2, h2, h⟩ := bind_ok h
    cases h
    rw [ih h2, pipeEdge_pool h1]

lemma bridgePhase_evolves {g : Graph} {logsDir : String} {order : List Nat}
    {pool : Pool} {st : PState} {pjs : List ProxyJob} {lcs : List LocalCmd}
    (h : bridgePhase g logsDir order pool = .ok (st, pjs, lcs)) :
    poolEvolves pool st.pool := by
  unfold bridgePhase at h
  obtain ⟨r1, h1, h⟩ := bind_ok h
  obtain ⟨r2, h2, h⟩ := bind_ok h
  cases h
  exact poolEvolves_trans (createProxiesAux_evolves h1) (execAll_evolves h2)

lemma createPipeline_evolves {g : Graph} {order : List Nat} {logsDir : String}
    {pool : Pool} {plan : Plan} {st' : PState}
    (h : createPipeline g order logsDir pool = .ok (plan, st')) :
    poolEvolves pool st'.pool := by
  unfold createPipeline at h
  obtain ⟨u, h0, h⟩ := bind_ok h
  unfold planAfterSanity at h
  obtain ⟨rb, h1, h⟩ := bind_ok h
  obtain ⟨rp, h2, h⟩ := bind_ok h
  cases h
  obtain ⟨st2, pjs, lcs⟩ := rb
  have hb := bridgePhase_evolves h1
  rw [← createPipesAux_pool h2] at hb
  exact hb

/-! Pool freshness. -/

lemma acquire_fresh {P : List Nat} {p : Pool} {v : Nat} {q : Pool}
    (hWF : poolWF P p) (h : acquire p = .ok (v, q)) :
    poolWF P q ∧ q.granted = p.granted ++ [v] ∧ v ∈ P ∧ v ∉ p.granted := by
  obtain ⟨ha, hg, hv⟩ := acquire_ok h
  obtain ⟨hnd, hsub⟩ := hWF
  have hperm : (q.granted ++ q.avail).Perm (p.granted ++ p.avail) :=
    (acquire_evolves h).2.2
  refine ⟨⟨hperm.symm.nodup hnd, fun m hm => hsub m (hperm.subset hm)⟩, hg, ?_, ?_⟩
  · exact hsub v (List.mem_append_right _ hv)
  · have hdis := List.disjoint_of_nodup_append hnd
    intro hvg
    exact hdis hvg hv

lemma acquireN_fresh {P : List Nat} {n : Nat} : ∀ {p vs q}, poolWF P p →
    acquireN n p = .ok (vs, q) →
    poolWF P q ∧ q.granted = p.granted ++ vs ∧ vs.Nodup ∧
      ∀ m ∈ vs, m ∈ P ∧ m ∉ p.granted := by
  induction n with
  | zero =>
    intro p vs q hWF h
    unfold acquireN at h
    cases h
    exact ⟨hWF, by simp, List.nodup_nil, by simp⟩
  | succ m ih =>
    intro p vs q hWF h
    unfold acquireN at h
    obtain ⟨r1, h1, h⟩ := bind_ok h
    obtain ⟨r2, h2, h⟩ := bind_ok h
    cases h
    obtain ⟨v, p1⟩ := r1
    obtain ⟨vs2, p2⟩ := r2
    obtain ⟨hWF1, hg1, hvP, hvg⟩ := acquire_fresh hWF h1
    obtain ⟨hWF2, hg2, hnd2, hmem2⟩ := ih hWF1 h2
    refine ⟨hWF2, ?_, ?_, ?_⟩
    · rw [hg2, hg1, List.append_assoc]
      rfl
    · rw [List.nodup_cons]
      refine ⟨?_, hnd2⟩
      intro hvin
      have := (hmem2 v hvin).2
      rw [hg1] at this
      exact this (List.mem_append_right _ (List.mem_singleton.mpr rfl))
    · intro m hm
      rcases List.mem_cons.mp hm with he | hm2
      · subst he
        exact ⟨hvP, hvg⟩
      · refine ⟨(hmem2 m hm2).1, ?_⟩
        intro hmg
        exact (hmem2 m hm2).2 (hg1 ▸ List.mem_append_left _ hmg)

/-! The proxy-insertion invariant: endpoint values are classified as
original declared values or freshly granted ports, and each granted port
occurs in at most one binding position of a node. -/

lemma port_injective : Function.Injective EP.port := by
  intro a b h
  injection h

lemma not_port_mem_nodeVals {P : List Nat} {snap : List EP} {granted : List Nat}
    {nd : Node} (hNI : NInv P snap granted nd)
    (hsnapSafe : ∀ w ∈ snap, SafeVal P w) {q : Nat} (hqP : q ∈ P)
    (hqg : q ∉ granted) : EP.port q ∉ nodeVals nd := by
  intro hmem
  unfold nodeVals at hmem
  rcases List.mem_append.mp hmem with hin | heg
  · obtain ⟨k, ws, hkw, hw⟩ := mem_bindingVals hin
    rcases hNI.1 k ws hkw _ hw with hsnap | ⟨q2, hq2, he⟩
    · exact (hsnapSafe _ hsnap q rfl) hqP
    · injection he with heq
      subst heq
      exact hqg hq2
  · obtain ⟨o, vs, hov, hv⟩ := mem_bindingVals heg
    rcases hNI.2.1 o vs hov _ hv with hsafe | ⟨q2, hq2, he⟩
    · exact (hsafe q rfl) hqP
    · injection he with heq
      subst heq
      exact hqg hq2

lemma NInv_mono {P : List Nat} {snap : List EP} {granted d : List Nat} {nd : Node}
    (hsnapSafe : ∀ w ∈ snap, SafeVal P w)
    (hd : ∀ q ∈ d, q ∈ P ∧ q ∉ granted)
    (h : NInv P snap granted nd) : NInv P snap (granted ++ d) nd := by
  obtain ⟨hin, heg, hinj⟩ := h
  refine ⟨?_, ?_, ?_⟩
  · intro k ws hkw w hw
    rcases hin k ws hkw w hw with hs | ⟨q, hq, he⟩
    · exact Or.inl hs
    · exact Or.inr ⟨q, List.mem_append_left _ hq, he⟩
  · intro o vs hov v hv
    rcases heg o vs hov v hv with hs | ⟨q, hq, he⟩
    · exact Or.inl hs
    · exact Or.inr ⟨q, List.mem_append_left _ hq, he⟩
  · intro q hq
    rcases List.mem_append.mp hq with hq1 | hq2
    · exact hinj q hq1
    · have hnm := not_port_mem_nodeVals ⟨hin, heg, hinj⟩ hsnapSafe
        (hd q hq2).1 (hd q hq2).2
      rw [List.count_eq_zero.mpr hnm]
      omega

lemma EgProc_mono {P : List Nat} {snap : List EP} {granted d : List Nat}
    {os : List String} {nd : Node} (h : EgProc P snap granted os nd) :
    EgProc P snap (granted ++ d) os nd := by
  unfold EgProc at h ⊢
  intro o ho vs hvs
  rcases h o ho vs hvs with ⟨qs, he, hq⟩ | hkept
  · exact Or.inl ⟨qs, he, fun q hqq => List.mem_append_left _ (hq q hqq)⟩
  · exact Or.inr hkept

/-- One Counter iteration of proxy insertion preserves the node-local
invariant, only rewrites the egress entry of its own key, and leaves that
entry either as a list of granted ports or untouched with its head
endpoint not among the original ingress values. -/
lemma proxyStep_main {P : List Nat} {snap : List EP} {nd : Node} {pool : Pool}
    {oc : String × Nat} {nd' : Node} {pool' : Pool} {js : List ProxyJob}
    (hkin : (nd.ingress.map Prod.fst).Nodup)
    (hkeg : (nd.egress.map Prod.fst).Nodup)
    (hWF : poolWF P pool)
    (hNI : NInv P snap pool.granted nd)
    (hsnapSafe : ∀ w ∈ snap, SafeVal P w)
    (h : proxyStep snap nd pool oc = .ok (nd', pool', js)) :
    (∃ d, pool'.granted = pool.granted ++ d ∧ ∀ q ∈ d, q ∈ P ∧ q ∉ pool.granted) ∧
    poolWF P pool' ∧
    NInv P snap pool'.granted nd' ∧
    nd'.ingress.map Prod.fst = nd.ingress.map Prod.fst ∧
    nd'.egress.map Prod.fst = nd.egress.map Prod.fst ∧
    (∀ o2, o2 ≠ oc.1 → aget nd'.egress o2 = aget nd.egress o2) ∧
    (∀ vs, aget nd'.egress oc.1 = some vs →
      (∃ qs : List Nat, vs = qs.map EP.port ∧ ∀ q ∈ qs, q ∈ pool'.granted) ∨
      (aget nd.egress oc.1 = some vs ∧ ∃ v rest2, vs = v :: rest2 ∧ v ∉ snap)) := by
  unfold proxyStep at h
  obtain ⟨binding, hb, h⟩ := bind_ok h
  obtain ⟨outputType, ho, h⟩ := bind_ok h
  have hbind : aget nd.egress oc.1 = some binding := ofOption_ok hb
  have hhead : binding.head? = some outputType := ofOption_ok ho
  by_cases hmem : outputType ∈ snap
  · -- alias branch
    rw [if_pos hmem] at h
    obtain ⟨rOut, h1, h⟩ := bind_ok h
    obtain ⟨rIn, h2, h⟩ := bind_ok h
    obtain ⟨ipair, h3, h⟩ := bind_ok h
    obtain ⟨outs, pool1⟩ := rOut
    obtain ⟨q0, pool2⟩ := rIn
    cases h
    obtain ⟨hWF1, hg1, houtsNodup, houts⟩ := acquireN_fresh hWF h1
    obtain ⟨hWF2, hg2, hqP, hqg1⟩ := acquire_fresh hWF1 h2
    have hfind : nd.ingress.find? (fun p => decide (outputType ∈ p.2)) = some ipair :=
      ofOption_ok h3
    have hipmem : ipair ∈ nd.ingress := List.mem_of_find?_eq_some hfind
    have hipget : aget nd.ingress ipair.1 = some ipair.2 := mem_aget hkin hipmem
    have hqg : q0 ∉ pool.granted := by
      intro hg
      exact hqg1 (hg1 ▸ List.mem_append_left _ hg)
    have hgr : pool2.granted = pool.granted ++ (outs ++ [q0]) := by
      rw [hg2, hg1, List.append_assoc]
    have hdfacts : ∀ q ∈ outs ++ [q0], q ∈ P ∧ q ∉ pool.granted := by
      intro q hq
      rcases List.mem_append.mp hq with hq1 | hq2
      · exact houts q hq1
      · rw [List.mem_singleton] at hq2
        subst hq2
        exact ⟨hqP, hqg⟩
    have hqouts : q0 ∉ outs := by
      intro hq
      exact hqg1 (hg1 ▸ List.mem_append_right _ hq)
    refine ⟨⟨outs ++ [q0], hgr, hdfacts⟩, hWF2, ?_, ?_, ?_, ?_, ?_⟩
    · -- NInv for the rewritten node
      refine ⟨?_, ?_, ?_⟩
      · intro k ws hkw w hw
        have hkw2 : (k, ws) ∈ aset nd.ingress ipair.1 [EP.port q0] := hkw
        rcases mem_aset hkw2 with hold | hnew
        · rcases hNI.1 k ws hold w hw with hs | ⟨q, hq, he⟩
          · exact Or.inl hs
          · exact Or.inr ⟨q, hgr ▸ List.mem_append_left _ hq, he⟩
        · subst hnew
          rw [List.mem_singleton] at hw
          subst hw
          refine Or.inr ⟨q0, ?_, rfl⟩
          rw [hgr]
          exact List.mem_append_right _ (List.mem_append_right _ (List.mem_singleton.mpr rfl))
      · intro o vs hov v hv
        have hov2 : (o, vs) ∈ aset nd.egress oc.1 (outs.map EP.port) := hov
        rcases mem_aset hov2 with hold | hnew
        · rcases hNI.2.1 o vs hold v hv with hs | ⟨q, hq, he⟩
          · exact Or.inl hs
          · exact Or.inr ⟨q, hgr ▸ List.mem_append_left _ hq, he⟩
        · subst hnew
          rw [List.mem_map] at hv
          obtain ⟨q, hq, he⟩ := hv
          refine Or.inr ⟨q, ?_, he.symm⟩
          rw [hgr]
          exact List.mem_append_right _ (List.mem_append_left _ hq)
      · intro q hq
        rw [hgr] at hq
        have hc1 := bindingVals_aset_count [EP.port q0] (EP.port q) hkin hipget
        have hc2 := bindingVals_aset_count (outs.map EP.port) (EP.port q) hkeg hbind
        have hnvold : (nodeVals nd).count (EP.port q) =
            (bindingVals nd.ingress).count (EP.port q) +
            (bindingVals nd.egress).count (EP.port q) := by
          unfold nodeVals
          rw [List.count_append]
        have hfinal : (bindingVals (aset nd.ingress ipair.1 [EP.port q0])).count (EP.port q) +
            (bindingVals (aset nd.egress oc.1 (outs.map EP.port))).count (EP.port q) ≤ 1 := by
          rcases List.mem_append.mp hq with hqold | hqnew
          · have hinj := hNI.2.2 q hqold
            rw [hnvold] at hinj
            have hz1 : ([EP.port q0].count (EP.port q)) = 0 := by
              rw [List.count_eq_zero]
              intro hm
              rw [List.mem_singleton] at hm
              injection hm with he
              exact hqg (he ▸ hqold)
            have hz2 : ((outs.map EP.port).count (EP.port q)) = 0 := by
              rw [List.count_eq_zero]
              intro hm
              rw [List.mem_map] at hm
              obtain ⟨q2, hq2, he⟩ := hm
              injection he with he2
              exact (houts q2 hq2).2 (he2 ▸ hqold)
            omega
          · have hfresh : EP.port q ∉ nodeVals nd :=
              not_port_mem_nodeVals hNI hsnapSafe (hdfacts q hqnew).1 (hdfacts q hqnew).2
            have hcnt0 : (nodeVals nd).count (EP.port q) = 0 := List.count_eq_zero.mpr hfresh
            rw [hnvold] at hcnt0
            have hz3 : (ipair.2).count (EP.port q) = 0 := by
              rw [List.count_eq_zero]
              intro hm
              apply hfresh
              unfold nodeVals
              apply List.mem_append_left
              exact bindingVals_of_mem hipmem hm
            have hz4 : binding.count (EP.port q) = 0 := by
              rw [List.count_eq_zero]
              intro hm
              apply hfresh
              unfold nodeVals
              exact List.mem_append_right _ (bindingVals_of_mem (aget_mem hbind) hm)
            rcases List.mem_append.mp hqnew with hqo | hqq
            · have hz5 : ([EP.port q0].count (EP.port q)) = 0 := by
                rw [List.count_eq_zero]
                intro hm
                rw [List.mem_singleton] at hm
                injection hm with he
                subst he
                exact hqouts hqo
              have hle1 : ((outs.map EP.port).count (EP.port q)) ≤ 1 :=
                List.nodup_iff_count_le_one.mp (houtsNodup.map port_injective) _
              omega
            · rw [List.mem_singleton] at hqq
              subst hqq
              have hz6 : ((outs.map EP.port).count (EP.port q)) = 0 := by
                rw [List.count_eq_zero]
                intro hm
                rw [List.mem_map] at hm
                obtain ⟨q2, hq2, he⟩ := hm
                injection he with he2
                subst he2
                exact hqouts hq2
              have hle2 : ([EP.port q].count (EP.port q)) ≤ 1 :=
                List.nodup_iff_count_le_one.mp (List.nodup_singleton _) _
              omega
        show (bindingVals (aset nd.ingress ipair.1 [EP.port q0]) ++
            bindingVals (aset nd.egress oc.1 (outs.map EP.port))).count (EP.port q) ≤ 1
        rw [List.count_append]
        exact hfinal
    · show (aset nd.ingress ipair.1 [EP.port q0]).map Prod.fst = nd.ingress.map Prod.fst
      exact aset_keys _ _ _
    · show (aset nd.egress oc.1 (outs.map EP.port)).map Prod.fst = nd.egress.map Prod.fst
      exact aset_keys _ _ _
    · intro o2 hne
      show aget (aset nd.egress oc.1 (outs.map EP.port)) o2 = aget nd.egress o2
      exact aget_aset_ne _ hne
    · intro vs hvs
      have hvs2 : aget (aset nd.egress oc.1 (outs.map EP.port)) oc.1 = some vs := hvs
      rw [aget_aset_self (outs.map EP.port) hbind] at hvs2
      injection hvs2 with hvs2
      refine Or.inl ⟨outs, hvs2.symm, ?_⟩
      intro q hq
      rw [hgr]
      exact List.mem_append_right _ (List.mem_append_left _ hq)
  · rw [if_neg hmem] at h
    by_cases hfan : 1 < oc.2 ∧ outputType ≠ EP.stdout
    · -- fan-out branch
      rw [if_pos hfan] at h
      obtain ⟨rs, h1, h⟩ := bind_ok h
      obtain ⟨outs, pool1⟩ := rs
      cases h
      obtain ⟨hWF1, hg1, houtsNodup, houts⟩ := acquireN_fresh hWF h1
      refine ⟨⟨outs, hg1, houts⟩, hWF1, ?_, rfl, ?_, ?_, ?_⟩
      · refine ⟨?_, ?_, ?_⟩
        · intro k ws hkw w hw
          rcases hNI.1 k ws hkw w hw with hs | ⟨q, hq, he⟩
          · exact Or.inl hs
          · exact Or.inr ⟨q, hg1 ▸ List.mem_append_left _ hq, he⟩
        · intro o vs hov v hv
          have hov2 : (o, vs) ∈ aset nd.egress oc.1 (outs.map EP.port) := hov
          rcases mem_aset hov2 with hold | hnew
          · rcases hNI.2.1 o vs hold v hv with hs | ⟨q, hq, he⟩
            · exact Or.inl hs
            · exact Or.inr ⟨q, hg1 ▸ List.mem_append_left _ hq, he⟩
          · subst hnew
            rw [List.mem_map] at hv
            obtain ⟨q, hq, he⟩ := hv
            exact Or.inr ⟨q, hg1 ▸ List.mem_append_right _ hq, he.symm⟩
        · intro q hq
          rw [hg1] at hq
          have hc2 := bindingVals_aset_count (outs.map EP.port) (EP.port q) hkeg hbind
          have hnvold : (nodeVals nd).count (EP.port q) =
              (bindingVals nd.ingress).count (EP.port q) +
              (bindingVals nd.egress).count (EP.port q) := by
            unfold nodeVals
            rw [List.count_append]
          have hfinal : (bindingVals nd.ingress).count (EP.port q) +
              (bindingVals (aset nd.egress oc.1 (outs.map EP.port))).count (EP.port q) ≤ 1 := by
            rcases List.mem_append.mp hq with hqold | hqnew
            · have hinj := hNI.2.2 q hqold
              rw [hnvold] at hinj
              have hz2 : ((outs.map EP.port).count (EP.port q)) = 0 := by
                rw [List.count_eq_zero]
                intro hm
                rw [List.mem_map] at hm
                obtain ⟨q2, hq2, he⟩ := hm
                injection he with he2
                exact (houts q2 hq2).2 (he2 ▸ hqold)
              omega
            · have hfresh : EP.port q ∉ nodeVals nd :=
                not_port_mem_nodeVals hNI hsnapSafe (houts q hqnew).1 (houts q hqnew).2
              have hcnt0 : (nodeVals nd).count (EP.port q) = 0 := List.count_eq_zero.mpr hfresh
              rw [hnvold] at hcnt0
              have hz4 : binding.count (EP.port q) = 0 := by
                rw [List.count_eq_zero]
                intro hm
                apply hfresh
                unfold nodeVals
                exact List.mem_append_right _ (bindingVals_of_mem (aget_mem hbind) hm)
              have hle1 : ((outs.map EP.port).count (EP.port q)) ≤ 1 :=
                List.nodup_iff_count_le_one.mp (houtsNodup.map port_injective) _
              omega
          show (bindingVals nd.ingress ++
              bindingVals (aset nd.egress oc.1 (outs.map EP.port))).count (EP.port q) ≤ 1
          rw [List.count_append]
          exact hfinal
      · show (aset nd.egress oc.1 (outs.map EP.port)).map Prod.fst = nd.egress.map Prod.fst
        exact aset_keys _ _ _
      · intro o2 hne
        show aget (aset nd.egress oc.1 (outs.map EP.port)) o2 = aget nd.egress o2
        exact aget_aset_ne _ hne
      · intro vs hvs
        have hvs2 : aget (aset nd.egress oc.1 (outs.map EP.port)) oc.1 = some vs := hvs
        rw [aget_aset_self (outs.map EP.port) hbind] at hvs2
        injection hvs2 with hvs2
        refine Or.inl ⟨outs, hvs2.symm, ?_⟩
        intro q hq
        rw [hg1]
        exact List.mem_append_right _ hq
    · -- no rewrite
      rw [if_neg hfan] at h
      cases h
      refine ⟨⟨[], by simp, by simp⟩, hWF, ?_, rfl, rfl, fun o2 _ => rfl, ?_⟩
      · exact hNI
      · intro vs hvs
        right
        refine ⟨hvs, ?_⟩
        rw [hbind] at hvs
        injection hvs with hvs
        subst hvs
        cases binding with
        | nil => cases hhead
        | cons v0 tail =>
          injection hhead with hh
          subst hh
          exact ⟨v0, tail, rfl, hmem⟩

/-- Folding proxy steps over the Counter entries of one node. -/
lemma proxyOcs_main {P : List Nat} {snap : List EP} :
    ∀ {ocs : List (String × Nat)} {nd : Node} {pool : Pool} {nd' : Node}
      {pool' : Pool} {js : List ProxyJob},
      (ocs.map Prod.fst).Nodup →
      (nd.ingress.map Prod.fst).Nodup →
      (nd.egress.map Prod.fst).Nodup →
      poolWF P pool →
      NInv P snap pool.granted nd →
      (∀ w ∈ snap, SafeVal P w) →
      proxyOcs snap ocs nd pool = .ok (nd', pool', js) →
      (∃ d, pool'.granted = pool.granted ++ d ∧ ∀ q ∈ d, q ∈ P ∧ q ∉ pool.granted) ∧
      poolWF P pool' ∧
      NInv P snap pool'.granted nd' ∧
      nd'.ingress.map Prod.fst = nd.ingress.map Prod.fst ∧
      nd'.egress.map Prod.fst = nd.egress.map Prod.fst ∧
      (∀ o2, o2 ∉ ocs.map Prod.fst → aget nd'.egress o2 = aget nd.egress o2) ∧
      (∀ o ∈ ocs.map Prod.fst, ∀ vs, aget nd'.egress o = some vs →
        (∃ qs : List Nat, vs = qs.map EP.port ∧ ∀ q ∈ qs, q ∈ pool'.granted) ∨
        (aget nd.egress o = some vs ∧ ∃ v rest2, vs = v :: rest2 ∧ v ∉ snap)) := by
  intro ocs
  induction ocs with
  | nil =>
    intro nd pool nd' pool' js _ _ _ hWF hNI _ h
    unfold proxyOcs at h
    cases h
    refine ⟨⟨[], by simp, by simp⟩, hWF, hNI, rfl, rfl, fun o2 _ => rfl, ?_⟩
    intro o ho
    simp at ho
  | cons oc rest ih =>
    intro nd pool nd' pool' js hocs hkin hkeg hWF hNI hsnapSafe h
    rw [List.map_cons] at hocs
    have hoc1 : oc.1 ∉ rest.map Prod.fst := (List.nodup_cons.mp hocs).1
    have hocs2 : (rest.map Prod.fst).Nodup := (List.nodup_cons.mp hocs).2
    unfold proxyOcs at h
    obtain ⟨r1, h1, h⟩ := bind_ok h
    obtain ⟨nd1, pool1, js1⟩ := r1
    obtain ⟨r2, h2, h⟩ := bind_ok h
    obtain ⟨nd2, pool2, js2⟩ := r2
    cases h
    obtain ⟨⟨d1, hd1, hd1f⟩, hWF1, hNI1, hki1, hke1, hfr1, hent1⟩ :=
      proxyStep_main hkin hkeg hWF hNI hsnapSafe h1
    obtain ⟨⟨d2, hd2, hd2f⟩, hWF2, hNI2, hki2, hke2, hfr2, hent2⟩ :=
      ih hocs2 (hki1 ▸ hkin) (hke1 ▸ hkeg) hWF1 hNI1 hsnapSafe h2
    refine ⟨⟨d1 ++ d2, ?_, ?_⟩, hWF2, hNI2, by rw [hki2, hki1], by rw [hke2, hke1],
      ?_, ?_⟩
    · rw [hd2, hd1, List.append_assoc]
    · intro q hq
      rcases List.mem_append.mp hq with hq1 | hq2
      · exact hd1f q hq1
      · refine ⟨(hd2f q hq2).1, ?_⟩
        intro hqg
        exact (hd2f q hq2).2 (hd1 ▸ List.mem_append_left _ hqg)
    · intro o2 ho2
      rw [List.map_cons, List.mem_cons] at ho2
      push_neg at ho2
      rw [hfr2 o2 ho2.2, hfr1 o2 ho2.1]
    · intro o ho vs hvs
      rw [List.map_cons, List.mem_cons] at ho
      rcases ho with hhead | hrest2
      · -- the head key: framed through the tail, classified by the head step
        have hoo : o ∉ rest.map Prod.fst := by
          rw [hhead]
          exact hoc1
        rw [hfr2 o hoo] at hvs
        rw [hhead] at hvs
        rcases hent1 vs hvs with ⟨qs, he, hq⟩ | ⟨hsame, hshape⟩
        · refine Or.inl ⟨qs, he, ?_⟩
          intro q hqq
          rw [hd2]
          exact List.mem_append_left _ (hq q hqq)
        · rw [← hhead] at hsame
          exact Or.inr ⟨hsame, hshape⟩
      · -- a tail key, distinct from the head key
        have hne : o ≠ oc.1 := by
          intro he
          rw [← he] at hoc1
          exact hoc1 hrest2
        rcases hent2 o hrest2 vs hvs with hgy | ⟨hsame, hshape⟩
        · exact Or.inl hgy
        · rw [hfr1 o hne] at hsame
          exact Or.inr ⟨hsame, hshape⟩

lemma snapIn_safe {g : Graph} {P : List Nat} {i : Nat} {nd0 : Node}
    (hget : g.nodes.get? i = some nd0) (hdecl : NodeDecl P nd0) :
    ∀ w ∈ snapIn g i, SafeVal P w := by
  intro w hw
  unfold snapIn at hw
  rw [hget] at hw
  apply hdecl.1
  unfold nodeVals
  exact List.mem_append_left _ hw

lemma NodeDone_mono {g : Graph} {P : List Nat} {granted d : List Nat} {i : Nat}
    {nd nd0 : Node} (hget : g.nodes.get? i = some nd0) (hdecl : NodeDecl P nd0)
    (hd : ∀ q ∈ d, q ∈ P ∧ q ∉ granted)
    (h : NodeDone g P granted i nd) : NodeDone g P (granted ++ d) i nd := by
  obtain ⟨hNI, hki, hke, hout⟩ := h
  refine ⟨NInv_mono (snapIn_safe hget hdecl) hd hNI, hki, hke, ?_⟩
  intro o hoe vs hvs
  rcases hout o hoe vs hvs with ⟨qs, he, hq⟩ | hkept
  · exact Or.inl ⟨qs, he, fun q hqq => List.mem_append_left _ (hq q hqq)⟩
  · exact Or.inr hkept

lemma outEdges_mem {g : Graph} {i : Nat} {e : Edge} :
    e ∈ outEdges g i ↔ e ∈ g.edges ∧ e.src = i := by
  unfold outEdges
  rw [List.mem_filter]
  constructor
  · rintro ⟨h1, h2⟩
    exact ⟨h1, by simpa using h2⟩
  · rintro ⟨h1, h2⟩
    exact ⟨h1, by simpa using h2⟩

/-- Proxy insertion at a single node establishes the per-node
postcondition. -/
lemma proxyNode_main {g : Graph} {P : List Nat} {st : PState} {i : Nat}
    {st' : PState} {js : List ProxyJob} {nd nd0 : Node}
    (hget : st.nodes.get? i = some nd)
    (hget0 : g.nodes.get? i = some nd0)
    (hview : bindView nd = bindView nd0)
    (hdecl : NodeDecl P nd0)
    (hWF : poolWF P st.pool)
    (h : proxyNode g st i = .ok (st', js)) :
    (∃ d, st'.pool.granted = st.pool.granted ++ d ∧ ∀ q ∈ d, q ∈ P ∧ q ∉ st.pool.granted) ∧
    poolWF P st'.pool ∧
    st'.nodes.length = st.nodes.length ∧
    (∀ j, j ≠ i → st'.nodes.get? j = st.nodes.get? j) ∧
    (∃ nd', st'.nodes.get? i = some nd' ∧ NodeDone g P st'.pool.granted i nd') := by
  unfold proxyNode at h
  obtain ⟨nd2, hg2, h⟩ := bind_ok h
  have hnd2 : nd = nd2 := by
    have hx := ofOption_ok hg2
    rw [hget] at hx
    exact Option.some.inj hx
  subst hnd2
  obtain ⟨r, hocs, h⟩ := bind_ok h
  obtain ⟨ndF, poolF, jsF⟩ := r
  cases h
  have hie : nd.ingress = nd0.ingress := congrArg Prod.fst hview
  have hee : nd.egress = nd0.egress := congrArg (fun t => t.2.1) hview
  have hsnap : bindingVals nd.ingress = snapIn g i := by
    unfold snapIn
    rw [hget0, hie]
  have hsnapSafe : ∀ w ∈ snapIn g i, SafeVal P w := snapIn_safe hget0 hdecl
  have hkin : (nd.ingress.map Prod.fst).Nodup := by
    rw [hie]
    exact hdecl.2.1
  have hkeg : (nd.egress.map Prod.fst).Nodup := by
    rw [hee]
    exact hdecl.2.2.1
  have hNI0 : NInv P (snapIn g i) st.pool.granted nd := by
    refine ⟨?_, ?_, ?_⟩
    · intro k ws hkw w hw
      left
      rw [← hsnap]
      exact bindingVals_of_mem hkw hw
    · intro o vs hov v hv
      left
      apply hdecl.1
      unfold nodeVals
      apply List.mem_append_right
      rw [← hee]
      exact bindingVals_of_mem hov hv
    · intro q hq
      rw [List.count_eq_zero.mpr]
      · omega
      · intro hmem
        have hvals : nodeVals nd = nodeVals nd0 := by
          unfold nodeVals
          rw [hie, hee]
        rw [hvals] at hmem
        have hqP : q ∈ P := hWF.2 q (List.mem_append_left _ hq)
        exact (hdecl.1 _ hmem q rfl) hqP
  have hsnap2 : proxyOcs (bindingVals nd.ingress) (counterFrom (outEdges g i)) nd st.pool =
      .ok (ndF, poolF, jsF) := hocs
  rw [hsnap] at hsnap2
  obtain ⟨hdf, hWFf, hNIf, hkif, hkef, hfrf, hentf⟩ :=
    proxyOcs_main (counterFrom_keys_nodup (outEdges g i)) hkin hkeg hWF hNI0
      hsnapSafe hsnap2
  have hlt : i < st.nodes.length := by
    by_contra hge
    push_neg at hge
    rw [List.get?_eq_getElem?, List.getElem?_eq_none hge] at hget
    cases hget
  refine ⟨hdf, hWFf, by simp, ?_, ?_⟩
  · intro j hj
    show (st.nodes.set i ndF).get? j = st.nodes.get? j
    rw [List.get?_eq_getElem? (st.nodes.set i ndF) j, List.get?_eq_getElem? st.nodes j]
    exact List.getElem?_set_ne (fun he => hj he.symm)
  · refine ⟨ndF, ?_, ?_⟩
    · show (st.nodes.set i ndF).get? i = some ndF
      rw [List.get?_eq_getElem? (st.nodes.set i ndF) i]
      rw [List.getElem?_set_eq_of_lt _ hlt]
    · refine ⟨hNIf, by rw [hkif]; exact hkin, by rw [hkef]; exact hkeg, ?_⟩
      intro o hoe vs hvs
      have hokey : o ∈ (counterFrom (outEdges g i)).map Prod.fst := by
        rw [counterFrom_keys_iff]
        obtain ⟨e, he, hsrc, hso⟩ := hoe
        exact ⟨e, outEdges_mem.mpr ⟨he, hsrc⟩, hso⟩
      rcases hentf o hokey vs hvs with hgr | ⟨hsame, v, rest2, hshape, hnsnap⟩
      · exact Or.inl hgr
      · -- the kept entry is the original singleton safe value
        have hmem0 : (o, vs) ∈ nd.egress := aget_mem hsame
        have hlen1 : vs.length = 1 := by
          have hx : (o, vs) ∈ nd0.egress := by
            rw [← hee]
            exact hmem0
          exact hdecl.2.2.2 (o, vs) hx
        have hvs1 : vs = [v] := by
          rw [hshape] at hlen1 ⊢
          simp at hlen1
          rw [hlen1]
        refine Or.inr ⟨v, hvs1, ?_, hnsnap⟩
        apply hdecl.1
        unfold nodeVals
        apply List.mem_append_right
        rw [← hee]
        apply bindingVals_of_mem hmem0
        rw [hshape]
        exact List.mem_cons_self _ _

lemma setLabel_length {nodes : List Node} {i : Nat} {lbl : String} :
    (setLabel nodes i lbl).length = nodes.length := by
  unfold setLabel
  cases nodes.get? i with
  | none => rfl
  | some nd => exact List.length_set nodes i _

lemma labelNodesAux_length : ∀ {L : List (Nat × Nat)} {nodes : List Node},
    (labelNodesAux L nodes).length = nodes.length := by
  intro L
  induction L with
  | nil => intro nodes; rfl
  | cons p rest ih =>
    intro nodes
    obtain ⟨k, i⟩ := p
    unfold labelNodesAux
    rw [ih, setLabel_length]

lemma labelNodes_length {order : List Nat} {nodes : List Node} :
    (labelNodes order nodes).length = nodes.length :=
  labelNodesAux_length

lemma setLabel_bindView {nodes : List Node} {i : Nat} {lbl : String} (j : Nat) :
    ((setLabel nodes i lbl).get? j).map bindView = (nodes.get? j).map bindView := by
  rw [setLabel_get j]
  by_cases hj : j = i
  · subst hj
    rw [if_pos rfl, Option.map_map]
    cases nodes.get? j with
    | none => rfl
    | some nd => rfl
  · rw [if_neg hj]

lemma labelNodesAux_bindView : ∀ {L : List (Nat × Nat)} {nodes : List Node} (j : Nat),
    ((labelNodesAux L nodes).get? j).map bindView = (nodes.get? j).map bindView := by
  intro L
  induction L with
  | nil => intro nodes j; rfl
  | cons p rest ih =>
    intro nodes j
    obtain ⟨k, i⟩ := p
    unfold labelNodesAux
    rw [ih, setLabel_bindView]

lemma labelNodes_bindView {order : List Nat} {nodes : List Node} (j : Nat) :
    ((labelNodes order nodes).get? j).map bindView = (nodes.get? j).map bindView :=
  labelNodesAux_bindView j

/-- Proxy insertion over a duplicate-free list of still-original nodes
establishes the per-node postcondition at every listed node and leaves
the others untouched. -/
lemma createProxiesAux_main {g : Graph} {P : List Nat} :
    ∀ {rem : List Nat} {st st' : PState} {js : List ProxyJob},
      rem.Nodup →
      (∀ i nd0, g.nodes.get? i = some nd0 → NodeDecl P nd0) →
      (∀ i ∈ rem, OrigAt g st i) →
      poolWF P st.pool →
      createProxiesAux g rem st = .ok (st', js) →
      (∃ d, st'.pool.granted = st.pool.granted ++ d ∧ ∀ q ∈ d, q ∈ P ∧ q ∉ st.pool.granted) ∧
      poolWF P st'.pool ∧
      st'.nodes.length = st.nodes.length ∧
      (∀ j, j ∉ rem → st'.nodes.get? j = st.nodes.get? j) ∧
      (∀ i ∈ rem, ∃ nd', st'.nodes.get? i = some nd' ∧
        NodeDone g P st'.pool.granted i nd') := by
  intro rem
  induction rem with
  | nil =>
    intro st st' js _ _ _ hWF h
    unfold createProxiesAux at h
    cases h
    refine ⟨⟨[], by simp, by simp⟩, hWF, rfl, fun j _ => rfl, ?_⟩
    intro i hi
    simp at hi
  | cons i rest ih =>
    intro st st' js hnd hGS horig hWF h
    have hi1 : i ∉ rest := (List.nodup_cons.mp hnd).1
    have hnd2 : rest.Nodup := (List.nodup_cons.mp hnd).2
    unfold createProxiesAux at h
    obtain ⟨r1, h1, h⟩ := bind_ok h
    obtain ⟨st1, js1⟩ := r1
    obtain ⟨r2, h2, h⟩ := bind_ok h
    obtain ⟨st2, js2⟩ := r2
    cases h
    obtain ⟨nd, nd0, hget, hget0, hview⟩ := horig i (List.mem_cons_self _ _)
    obtain ⟨⟨d1, hd1, hd1f⟩, hWF1, hlen1, hfr1, ndM, hgetM, hdoneM⟩ :=
      proxyNode_main hget hget0 hview (hGS i nd0 hget0) hWF h1
    have horig2 : ∀ i2 ∈ rest, OrigAt g st1 i2 := by
      intro i2 hi2
      obtain ⟨nd2, nd02, hg2, hg02, hv2⟩ := horig i2 (List.mem_cons_of_mem _ hi2)
      refine ⟨nd2, nd02, ?_, hg02, hv2⟩
      rw [hfr1 i2 (fun he => hi1 (he ▸ hi2))]
      exact hg2
    obtain ⟨⟨d2, hd2, hd2f⟩, hWF2, hlen2, hfr2, hpost2⟩ :=
      ih hnd2 hGS horig2 hWF1 h2
    refine ⟨⟨d1 ++ d2, ?_, ?_⟩, hWF2, by rw [hlen2, hlen1], ?_, ?_⟩
    · rw [hd2, hd1, List.append_assoc]
    · intro q hq
      rcases List.mem_append.mp hq with hq1 | hq2
      · exact hd1f q hq1
      · refine ⟨(hd2f q hq2).1, ?_⟩
        intro hqg
        exact (hd2f q hq2).2 (hd1 ▸ List.mem_append_left _ hqg)
    · intro j hj
      rw [List.mem_cons] at hj
      push_neg at hj
      rw [hfr2 j hj.2, hfr1 j hj.1]
    · intro i2 hi2
      rcases List.mem_cons.mp hi2 with he | hi2r
      · subst he
        refine ⟨ndM, ?_, ?_⟩
        · rw [hfr2 i2 hi1]
          exact hgetM
        · have hup : NodeDone g P (st1.pool.granted ++ d2) i2 ndM :=
            NodeDone_mono hget0 (hGS i2 nd0 hget0) hd2f hdoneM
          rw [← hd2] at hup
          exact hup
      · exact hpost2 i2 hi2r

/-- Rewriting one egress binding to freshly granted ports preserves the
node-local invariant. -/
lemma NInv_aset_egress {P : List Nat} {snap : List EP} {granted : List Nat}
    {nd : Node} {s : String} {ws0 : List EP} {outs : List Nat}
    (hkeg : (nd.egress.map Prod.fst).Nodup)
    (hNI : NInv P snap granted nd)
    (hsnapSafe : ∀ w ∈ snap, SafeVal P w)
    (hbind : aget nd.egress s = some ws0)
    (houtsNodup : outs.Nodup)
    (houts : ∀ m ∈ outs, m ∈ P ∧ m ∉ granted) :
    NInv P snap (granted ++ outs)
      { nd with egress := aset nd.egress s (outs.map EP.port) } := by
  refine ⟨?_, ?_, ?_⟩
  · intro k ws hkw w hw
    have hkw2 : (k, ws) ∈ nd.ingress := hkw
    rcases hNI.1 k ws hkw2 w hw with hs | ⟨q, hq, he⟩
    · exact Or.inl hs
    · exact Or.inr ⟨q, List.mem_append_left _ hq, he⟩
  · intro o vs hov v hv
    have hov2 : (o, vs) ∈ aset nd.egress s (outs.map EP.port) := hov
    rcases mem_aset hov2 with hold | hnew
    · rcases hNI.2.1 o vs hold v hv with hs | ⟨q, hq, he⟩
      · exact Or.inl hs
      · exact Or.inr ⟨q, List.mem_append_left _ hq, he⟩
    · subst hnew
      rw [List.mem_map] at hv
      obtain ⟨q, hq, he⟩ := hv
      exact Or.inr ⟨q, List.mem_append_right _ hq, he.symm⟩
  · intro q hq
    have hc2 := bindingVals_aset_count (outs.map EP.port) (EP.port q) hkeg hbind
    have hnvold : (nodeVals nd).count (EP.port q) =
        (bindingVals nd.ingress).count (EP.port q) +
        (bindingVals nd.egress).count (EP.port q) := by
      unfold nodeVals
      rw [List.count_append]
    have hfinal : (bindingVals nd.ingress).count (EP.port q) +
        (bindingVals (aset nd.egress s (outs.map EP.port))).count (EP.port q) ≤ 1 := by
      rcases List.mem_append.mp hq with hqold | hqnew
      · have hinj := hNI.2.2 q hqold
        rw [hnvold] at hinj
        have hz2 : ((outs.map EP.port).count (EP.port q)) = 0 := by
          rw [List.count_eq_zero]
          intro hm
          rw [List.mem_map] at hm
          obtain ⟨q2, hq2, he⟩ := hm
          injection he with he2
          exact (houts q2 hq2).2 (he2 ▸ hqold)
        omega
      · have hfresh : EP.port q ∉ nodeVals nd :=
          not_port_mem_nodeVals hNI hsnapSafe (houts q hqnew).1 (houts q hqnew).2
        have hcnt0 : (nodeVals nd).count (EP.port q) = 0 := List.count_eq_zero.mpr hfresh
        rw [hnvold] at hcnt0
        have hz4 : ws0.count (EP.port q) = 0 := by
          rw [List.count_eq_zero]
          intro hm
          apply hfresh
          unfold nodeVals
          exact List.mem_append_right _ (bindingVals_of_mem (aget_mem hbind) hm)
        have hle1 : ((outs.map EP.port).count (EP.port q)) ≤ 1 :=
          List.nodup_iff_count_le_one.mp (houtsNodup.map port_injective) _
        omega
    show (bindingVals nd.ingress ++
        bindingVals (aset nd.egress s (outs.map EP.port))).count (EP.port q) ≤ 1
    rw [List.count_append]
    exact hfinal

/-- Rewriting one ingress binding to a single freshly granted port
preserves the node-local invariant. -/
lemma NInv_aset_ingress {P : List Nat} {snap : List EP} {granted : List Nat}
    {nd : Node} {k : String} {ws0 : List EP} {q0 : Nat}
    (hkin : (nd.ingress.map Prod.fst).Nodup)
    (hNI : NInv P snap granted nd)
    (hsnapSafe : ∀ w ∈ snap, SafeVal P w)
    (hbind : aget nd.ingress k = some ws0)
    (hqP : q0 ∈ P) (hqg : q0 ∉ granted) :
    NInv P snap (granted ++ [q0])
      { nd with ingress := aset nd.ingress k [EP.port q0] } := by
  refine ⟨?_, ?_, ?_⟩
  · intro k2 ws hkw w hw
    have hkw2 : (k2, ws) ∈ aset nd.ingress k [EP.port q0] := hkw
    rcases mem_aset hkw2 with hold | hnew
    · rcases hNI.1 k2 ws hold w hw with hs | ⟨q, hq, he⟩
      · exact Or.inl hs
      · exact Or.inr ⟨q, List.mem_append_left _ hq, he⟩
    · subst hnew
      rw [List.mem_singleton] at hw
      subst hw
      exact Or.inr ⟨q0, List.mem_append_right _ (List.mem_singleton.mpr rfl), rfl⟩
  · intro o vs hov v hv
    have hov2 : (o, vs) ∈ nd.egress := hov
    rcases hNI.2.1 o vs hov2 v hv with hs | ⟨q, hq, he⟩
    · exact Or.inl hs
    · exact Or.inr ⟨q, List.mem_append_left _ hq, he⟩
  · intro q hq
    have hc2 := bindingVals_aset_count [EP.port q0] (EP.port q) hkin hbind
    have hnvold : (nodeVals nd).count (EP.port q) =
        (bindingVals nd.ingress).count (EP.port q) +
        (bindingVals nd.egress).count (EP.port q) := by
      unfold nodeVals
      rw [List.count_append]
    have hfinal : (bindingVals (aset nd.ingress k [EP.port q0])).count (EP.port q) +
        (bindingVals nd.egress).count (EP.port q) ≤ 1 := by
      rcases List.mem_append.mp hq with hqold | hqnew
      · have hinj := hNI.2.2 q hqold
        rw [hnvold] at hinj
        have hne0 : q ≠ q0 := fun he => hqg (he ▸ hqold)
        have hz2 : ([EP.port q0].count (EP.port q)) = 0 := by
          rw [List.count_eq_zero]
          intro hm
          rw [List.mem_singleton] at hm
          injection hm with hm2
          exact hne0 hm2
        omega
      · rw [List.mem_singleton] at hqnew
        have hqP2 : q ∈ P := by rw [hqnew]; exact hqP
        have hqg2 : q ∉ granted := by rw [hqnew]; exact hqg
        have hfresh : EP.port q ∉ nodeVals nd :=
          not_port_mem_nodeVals hNI hsnapSafe hqP2 hqg2
        have hcnt0 : (nodeVals nd).count (EP.port q) = 0 := List.count_eq_zero.mpr hfresh
        rw [hnvold] at hcnt0
        have hz4 : ws0.count (EP.port q) = 0 := by
          rw [List.count_eq_zero]
          intro hm
          apply hfresh
          unfold nodeVals
          exact List.mem_append_left _ (bindingVals_of_mem (aget_mem hbind) hm)
        have hle1 : ([EP.port q0].count (EP.port q)) ≤ 1 := by
          rw [hqnew]
          simp
        omega
    show (bindingVals (aset nd.ingress k [EP.port q0]) ++
        bindingVals nd.egress).count (EP.port q) ≤ 1
    rw [List.count_append]
    exact hfinal

/-- The stdin half of the local-resource phase: either a no-op, or one
fresh acquisition rewriting one ingress binding, preserving the invariant
and the egress dict. -/
lemma execStdin_main {P : List Nat} {snap : List EP} {nd : Node} {pool : Pool}
    {nd1 : Node} {pool1 : Pool} {sp : Option Nat}
    (hkin : (nd.ingress.map Prod.fst).Nodup)
    (hWF : poolWF P pool)
    (hNI : NInv P snap pool.granted nd)
    (hsnapSafe : ∀ w ∈ snap, SafeVal P w)
    (h : execStdin nd pool = .ok (nd1, pool1, sp)) :
    (∃ d, pool1.granted = pool.granted ++ d ∧ ∀ q ∈ d, q ∈ P ∧ q ∉ pool.granted) ∧
    poolWF P pool1 ∧
    NInv P snap pool1.granted nd1 ∧
    nd1.ingress.map Prod.fst = nd.ingress.map Prod.fst ∧
    nd1.egress = nd.egress := by
  unfold execStdin at h
  cases hk : nd.stdinName with
  | none =>
    rw [hk] at h
    cases h
    exact ⟨⟨[], by simp, by simp⟩, hWF, hNI, rfl, rfl⟩
  | some k =>
    rw [hk] at h
    obtain ⟨r, h1, h⟩ := bind_ok h
    obtain ⟨q0, poolA⟩ := r
    cases h
    obtain ⟨hWF1, hg1, hqP, hqg⟩ := acquire_fresh hWF h1
    refine ⟨⟨[q0], hg1, ?_⟩, hWF1, ?_, aset_keys _ _ _, rfl⟩
    · intro q hq
      rw [List.mem_singleton] at hq
      subst hq
      exact ⟨hqP, hqg⟩
    · cases hb : aget nd.ingress k with
      | some ws0 =>
        rw [hg1]
        exact NInv_aset_ingress hkin hNI hsnapSafe hb hqP hqg
      | none =>
        have ha : aset nd.ingress k [EP.port q0] = nd.ingress := aget_absent hb _
        have hNIa : NInv P snap (pool.granted ++ [q0])
            { nd with ingress := aset nd.ingress k [EP.port q0] } := by
          rw [ha]
          refine NInv_mono hsnapSafe ?_ hNI
          intro q hq
          rw [List.mem_singleton] at hq
          subst hq
          exact ⟨hqP, hqg⟩
        rw [hg1]
        exact hNIa

/-- The local-resource phase at one node preserves the per-node
postcondition, with pool and frame facts. -/
lemma execNode_main {g : Graph} {P : List Nat} {logsDir : String} {st : PState}
    {i : Nat} {st' : PState} {lc : LocalCmd} {nd nd0 : Node}
    (hget : st.nodes.get? i = some nd)
    (hget0 : g.nodes.get? i = some nd0)
    (hdecl : NodeDecl P nd0)
    (hdone : NodeDone g P st.pool.granted i nd)
    (hWF : poolWF P st.pool)
    (h : execNode g logsDir st i = .ok (st', lc)) :
    (∃ d, st'.pool.granted = st.pool.granted ++ d ∧ ∀ q ∈ d, q ∈ P ∧ q ∉ st.pool.granted) ∧
    poolWF P st'.pool ∧
    st'.nodes.length = st.nodes.length ∧
    (∀ j, j ≠ i → st'.nodes.get? j = st.nodes.get? j) ∧
    (∃ nd', st'.nodes.get? i = some nd' ∧ NodeDone g P st'.pool.granted i nd') := by
  obtain ⟨hNI, hki, hke, hout⟩ := hdone
  have hsnapSafe := snapIn_safe hget0 hdecl
  unfold execNode at h
  obtain ⟨nd2, h0, h⟩ := bind_ok h
  have hnd2 : nd = nd2 := by
    have hx := ofOption_ok h0
    rw [hget] at hx
    exact Option.some.inj hx
  subst hnd2
  obtain ⟨r1, h1, h⟩ := bind_ok h
  obtain ⟨nd1, pool1, sp⟩ := r1
  obtain ⟨⟨d1, hd1, hd1f⟩, hWF1, hNI1, hki1, hee1⟩ :=
    execStdin_main hki hWF hNI hsnapSafe h1
  have hlt : i < st.nodes.length := by
    by_contra hge
    push_neg at hge
    rw [List.get?_eq_getElem?, List.getElem?_eq_none hge] at hget
    cases hget
  have hout1 : ∀ o, (∃ e ∈ g.edges, e.src = i ∧ e.srcOut = o) →
      ∀ vs, aget nd1.egress o = some vs →
        (∃ qs : List Nat, vs = qs.map EP.port ∧ ∀ q ∈ qs, q ∈ pool1.granted) ∨
        (∃ v, vs = [v] ∧ SafeVal P v ∧ v ∉ snapIn g i) := by
    intro o hoe vs hvs
    rw [hee1] at hvs
    rcases hout o hoe vs hvs with ⟨qs, heq, hq⟩ | hkept
    · exact Or.inl ⟨qs, heq, fun q hqq => hd1 ▸ List.mem_append_left _ (hq q hqq)⟩
    · exact Or.inr hkept
  by_cases hef : (g.edges.filter
      (fun e => e.src == i && nd.stdoutName == some e.srcOut)).length = 0
  · rw [if_pos hef] at h
    cases h
    refine ⟨⟨d1, hd1, hd1f⟩, hWF1, by simp, ?_, ?_⟩
    · intro j hj
      show (st.nodes.set i nd1).get? j = st.nodes.get? j
      rw [List.get?_eq_getElem? (st.nodes.set i nd1) j, List.get?_eq_getElem? st.nodes j]
      exact List.getElem?_set_ne (fun he2 => hj he2.symm)
    · refine ⟨nd1, ?_, hNI1, ?_, ?_, hout1⟩
      · show (st.nodes.set i nd1).get? i = some nd1
        rw [List.get?_eq_getElem? (st.nodes.set i nd1) i, List.getElem?_set_eq_of_lt _ hlt]
      · rw [hki1]
        exact hki
      · rw [hee1]
        exact hke
  · rw [if_neg hef] at h
    obtain ⟨s, h2, h⟩ := bind_ok h
    obtain ⟨r2, h3, h⟩ := bind_ok h
    obtain ⟨outs, pool2⟩ := r2
    cases h
    obtain ⟨hWF2, hg2, houtsNodup, houts⟩ := acquireN_fresh hWF1 h3
    have hdall : pool2.granted = st.pool.granted ++ (d1 ++ outs) := by
      rw [hg2, hd1, List.append_assoc]
    have hdallf : ∀ q ∈ d1 ++ outs, q ∈ P ∧ q ∉ st.pool.granted := by
      intro q hq
      rcases List.mem_append.mp hq with hq1 | hq2
      · exact hd1f q hq1
      · refine ⟨(houts q hq2).1, ?_⟩
        intro hqg
        exact (houts q hq2).2 (hd1 ▸ List.mem_append_left _ hqg)
    have hNIF : NInv P (snapIn g i) pool2.granted
        { nd1 with egress := aset nd1.egress s (outs.map EP.port) } := by
      cases hb : aget nd1.egress s with
      | some ws0 =>
        rw [hg2]
        refine NInv_aset_egress ?_ hNI1 hsnapSafe hb houtsNodup houts
        rw [hee1]
        exact hke
      | none =>
        have he2 : ({ nd1 with egress := aset nd1.egress s (outs.map EP.port) } : Node)
            = nd1 := by
          rw [aget_absent hb]
        rw [hg2, he2]
        exact NInv_mono hsnapSafe houts hNI1
    have houtF : ∀ o, (∃ e ∈ g.edges, e.src = i ∧ e.srcOut = o) →
        ∀ vs, aget (aset nd1.egress s (outs.map EP.port)) o = some vs →
          (∃ qs : List Nat, vs = qs.map EP.port ∧ ∀ q ∈ qs, q ∈ pool2.granted) ∨
          (∃ v, vs = [v] ∧ SafeVal P v ∧ v ∉ snapIn g i) := by
      intro o hoe vs hvs
      by_cases hos : o = s
      · subst hos
        cases hb : aget nd1.egress o with
        | some ws0 =>
          rw [aget_aset_self (outs.map EP.port) hb] at hvs
          injection hvs with hvs2
          refine Or.inl ⟨outs, hvs2.symm, ?_⟩
          intro q hq
          rw [hg2]
          exact List.mem_append_right _ hq
        | none =>
          rw [aget_absent hb, hb] at hvs
          cases hvs
      · rw [aget_aset_ne _ hos] at hvs
        rcases hout1 o hoe vs hvs with ⟨qs, heq, hq⟩ | hkept
        · exact Or.inl ⟨qs, heq, fun q hqq => hg2 ▸ List.mem_append_left _ (hq q hqq)⟩
        · exact Or.inr hkept
    refine ⟨⟨d1 ++ outs, hdall, hdallf⟩, hWF2, by simp, ?_, ?_⟩
    · intro j hj
      show (st.nodes.set i { nd1 with egress := aset nd1.egress s (outs.map EP.port) }).get? j
          = st.nodes.get? j
      rw [List.get?_eq_getElem?
            (st.nodes.set i { nd1 with egress := aset nd1.egress s (outs.map EP.port) }) j,
          List.get?_eq_getElem? st.nodes j]
      exact List.getElem?_set_ne (fun he2 => hj he2.symm)
    · refine ⟨{ nd1 with egress := aset nd1.egress s (outs.map EP.port) }, ?_, hNIF,
        ?_, ?_, houtF⟩
      · show (st.nodes.set i { nd1 with egress := aset nd1.egress s (outs.map EP.port) }).get? i
            = some { nd1 with egress := aset nd1.egress s (outs.map EP.port) }
        rw [List.get?_eq_getElem?
              (st.nodes.set i { nd1 with egress := aset nd1.egress s (outs.map EP.port) }) i,
            List.getElem?_set_eq_of_lt _ hlt]
      · show ((nd1.ingress).map Prod.fst).Nodup
        rw [hki1]
        exact hki
      · show ((aset nd1.egress s (outs.map EP.port)).map Prod.fst).Nodup
        rw [aset_keys, hee1]
        exact hke

/-- The local-resource phase over a duplicate-free node list preserves the
per-node postcondition at every listed node. -/
lemma execAll_main {g : Graph} {P : List Nat} {logsDir : String} :
    ∀ {rem : List Nat} {st st' : PState} {cs : List LocalCmd},
      rem.Nodup →
      (∀ i nd0, g.nodes.get? i = some nd0 → NodeDecl P nd0) →
      (∀ i ∈ rem, ∃ nd0, g.nodes.get? i = some nd0) →
      (∀ i ∈ rem, ∃ nd, st.nodes.get? i = some nd ∧ NodeDone g P st.pool.granted i nd) →
      poolWF P st.pool →
      execAll g logsDir rem st = .ok (st', cs) →
      (∃ d, st'.pool.granted = st.pool.granted ++ d ∧ ∀ q ∈ d, q ∈ P ∧ q ∉ st.pool.granted) ∧
      poolWF P st'.pool ∧
      st'.nodes.length = st.nodes.length ∧
      (∀ j, j ∉ rem → st'.nodes.get? j = st.nodes.get? j) ∧
      (∀ i ∈ rem, ∃ nd', st'.nodes.get? i = some nd' ∧
        NodeDone g P st'.pool.granted i nd') := by
  intro rem
  induction rem with
  | nil =>
    intro st st' cs _ _ _ _ hWF h
    unfold execAll at h
    cases h
    refine ⟨⟨[], by simp, by simp⟩, hWF, rfl, fun j _ => rfl, ?_⟩
    intro i hi
    simp at hi
  | cons i rest ih =>
    intro st st' cs hnd hGS hg0 hdone hWF h
    have hi1 : i ∉ rest := (List.nodup_cons.mp hnd).1
    have hnd2 : rest.Nodup := (List.nodup_cons.mp hnd).2
    unfold execAll at h
    obtain ⟨r1, h1, h⟩ := bind_ok h
    obtain ⟨st1, c1⟩ := r1
    obtain ⟨r2, h2, h⟩ := bind_ok h
    obtain ⟨st2, cs2⟩ := r2
    cases h
    obtain ⟨nd, hget, hdn⟩ := hdone i (List.mem_cons_self _ _)
    obtain ⟨nd0, hget0⟩ := hg0 i (List.mem_cons_self _ _)
    obtain ⟨⟨d1, hd1, hd1f⟩, hWF1, hlen1, hfr1, ndM, hgetM, hdoneM⟩ :=
      execNode_main hget hget0 (hGS i nd0 hget0) hdn hWF h1
    have hdone2 : ∀ i2 ∈ rest, ∃ nd2, st1.nodes.get? i2 = some nd2 ∧
        NodeDone g P st1.pool.granted i2 nd2 := by
      intro i2 hi2
      obtain ⟨nd2, hg2, hdn2⟩ := hdone i2 (List.mem_cons_of_mem _ hi2)
      obtain ⟨nd02, hg02⟩ := hg0 i2 (List.mem_cons_of_mem _ hi2)
      refine ⟨nd2, ?_, ?_⟩
      · rw [hfr1 i2 (fun he => hi1 (he ▸ hi2))]
        exact hg2
      · have hup := NodeDone_mono hg02 (hGS i2 nd02 hg02) hd1f hdn2
        rw [← hd1] at hup
        exact hup
    obtain ⟨⟨d2, hd2, hd2f⟩, hWF2, hlen2, hfr2, hpost2⟩ :=
      ih hnd2 hGS (fun i2 hi2 => hg0 i2 (List.mem_cons_of_mem _ hi2)) hdone2 hWF1 h2
    refine ⟨⟨d1 ++ d2, ?_, ?_⟩, hWF2, by rw [hlen2, hlen1], ?_, ?_⟩
    · rw [hd2, hd1, List.append_assoc]
    · intro q hq
      rcases List.mem_append.mp hq with hq1 | hq2
      · exact hd1f q hq1
      · refine ⟨(hd2f q hq2).1, ?_⟩
        intro hqg
        exact (hd2f q hq2).2 (hd1 ▸ List.mem_append_left _ hqg)
    · intro j hj
      rw [List.mem_cons] at hj
      push_neg at hj
      rw [hfr2 j hj.2, hfr1 j hj.1]
    · intro i2 hi2
      rcases List.mem_cons.mp hi2 with he | hi2r
      · subst he
        refine ⟨ndM, ?_, ?_⟩
        · rw [hfr2 i2 hi1]
          exact hgetM
        · have hup : NodeDone g P (st1.pool.granted ++ d2) i2 ndM :=
            NodeDone_mono hget0 (hGS i2 nd0 hget0) hd2f hdoneM
          rw [← hd2] at hup
          exact hup
      · exact hpost2 i2 hi2r

lemma shrinksB_refl (l : List (String × List EP)) : shrinksB l l :=
  ⟨rfl, fun _ ws2 h => ⟨ws2, h, List.Subset.refl _⟩⟩

lemma shrinksB_trans {l3 l2 l : List (String × List EP)} (h1 : shrinksB l3 l2)
    (h2 : shrinksB l2 l) : shrinksB l3 l := by
  refine ⟨h1.1.trans h2.1, ?_⟩
  intro k ws3 h3
  obtain ⟨ws2, hg2, hs2⟩ := h1.2 k ws3 h3
  obtain ⟨ws, hg, hs⟩ := h2.2 k ws2 hg2
  exact ⟨ws, hg, hs2.trans hs⟩

lemma NodeShrinks_refl (nd : Node) : NodeShrinks nd nd :=
  ⟨shrinksB_refl _, shrinksB_refl _⟩

lemma NodeShrinks_trans {nd3 nd2 nd : Node} (h1 : NodeShrinks nd3 nd2)
    (h2 : NodeShrinks nd2 nd) : NodeShrinks nd3 nd :=
  ⟨shrinksB_trans h1.1 h2.1, shrinksB_trans h1.2 h2.2⟩

lemma shrinksB_aset_dropLast {l : List (String × List EP)} {k : String}
    {eb : List EP} (h : aget l k = some eb) : shrinksB (aset l k eb.dropLast) l := by
  refine ⟨aset_keys _ _ _, ?_⟩
  intro k2 ws2 h2
  by_cases hk : k2 = k
  · subst hk
    rw [aget_aset_self eb.dropLast h] at h2
    injection h2 with h3
    refine ⟨eb, h, ?_⟩
    rw [← h3]
    exact (List.dropLast_sublist eb).subset
  · rw [aget_aset_ne _ hk] at h2
    exact ⟨ws2, h2, List.Subset.refl _⟩

lemma set_get_shrinks {nodes : List Node} {i : Nat} {ndOld ndNew : Node}
    (hget : nodes.get? i = some ndOld) (hsh : NodeShrinks ndNew ndOld) :
    ∀ j nd2, (nodes.set i ndNew).get? j = some nd2 →
      ∃ nd, nodes.get? j = some nd ∧ NodeShrinks nd2 nd := by
  intro j nd2 h2
  have hlt : i < nodes.length := by
    by_contra hge
    push_neg at hge
    rw [List.get?_eq_getElem?, List.getElem?_eq_none hge] at hget
    cases hget
  by_cases hj : j = i
  · subst hj
    rw [List.get?_eq_getElem? (nodes.set j ndNew) j, List.getElem?_set_eq_of_lt _ hlt] at h2
    injection h2 with h3
    exact ⟨ndOld, hget, h3 ▸ hsh⟩
  · rw [List.get?_eq_getElem? (nodes.set i ndNew) j,
        List.getElem?_set_ne (fun he => hj he.symm), ← List.get?_eq_getElem?] at h2
    exact ⟨nd2, h2, NodeShrinks_refl _⟩

/-- One edge-wiring step only pops values from binding lists. -/
lemma pipeEdge_shrinks {logsDir : String} {st : PState} {e : Edge} {st' : PState}
    {j : PipeJob} (h : pipeEdge logsDir st e = .ok (st', j)) :
    st'.nodes.length = st.nodes.length ∧
    ∀ i nd2, st'.nodes.get? i = some nd2 →
      ∃ nd, st.nodes.get? i = some nd ∧ NodeShrinks nd2 nd := by
  unfold pipeEdge at h
  obtain ⟨s, h1, h⟩ := bind_ok h
  obtain ⟨t, h2, h⟩ := bind_ok h
  obtain ⟨eb, h3, h⟩ := bind_ok h
  obtain ⟨rL, h4, h⟩ := bind_ok h
  obtain ⟨t1, h5, h⟩ := bind_ok h
  obtain ⟨ib, h6, h⟩ := bind_ok h
  obtain ⟨rC, h7, h⟩ := bind_ok h
  cases h
  have hgs : st.nodes.get? e.src = some s := ofOption_ok h1
  have hgeb : aget s.egress e.srcOut = some eb := ofOption_ok h3
  obtain ⟨vL, ebd⟩ := rL
  have hL : ebd = eb.dropLast := by
    unfold popLast at h4
    obtain ⟨w, hw1, hw2⟩ := bind_ok h4
    cases hw2
    rfl
  obtain ⟨vC, ibd⟩ := rC
  have hC : ibd = ib.dropLast := by
    unfold popLast at h7
    obtain ⟨w, hw1, hw2⟩ := bind_ok h7
    cases hw2
    rfl
  have hgt1 : (st.nodes.set e.src { s with egress := aset s.egress e.srcOut ebd }).get?
      e.tgt = some t1 := ofOption_ok h5
  have hgib : aget t1.ingress e.tgtIn = some ib := ofOption_ok h6
  have hsh1 : ∀ i nd2,
      (st.nodes.set e.src { s with egress := aset s.egress e.srcOut ebd }).get? i =
        some nd2 → ∃ nd, st.nodes.get? i = some nd ∧ NodeShrinks nd2 nd := by
    apply set_get_shrinks hgs
    subst hL
    exact ⟨shrinksB_refl _, shrinksB_aset_dropLast hgeb⟩
  have hsh2 : ∀ i nd2,
      ((st.nodes.set e.src { s with egress := aset s.egress e.srcOut ebd }).set e.tgt
        { t1 with ingress := aset t1.ingress e.tgtIn ibd }).get? i = some nd2 →
      ∃ nd, (st.nodes.set e.src { s with egress := aset s.egress e.srcOut ebd }).get? i
        = some nd ∧ NodeShrinks nd2 nd := by
    apply set_get_shrinks hgt1
    subst hC
    exact ⟨shrinksB_aset_dropLast hgib, shrinksB_refl _⟩
  refine ⟨by simp, ?_⟩
  intro i nd2 hg2
  obtain ⟨ndm, hgm, hshm⟩ := hsh2 i nd2 hg2
  obtain ⟨nd, hg, hsh⟩ := hsh1 i ndm hgm
  exact ⟨nd, hg, NodeShrinks_trans hshm hsh⟩

/-- The whole edge-wiring phase only pops values from binding lists. -/
lemma createPipesAux_shrinks {logsDir : String} :
    ∀ {es : List Edge} {st st' : PState} {js : List PipeJob},
      createPipesAux logsDir es st = .ok (st', js) →
      st'.nodes.length = st.nodes.length ∧
      ∀ i nd2, st'.nodes.get? i = some nd2 →
        ∃ nd, st.nodes.get? i = some nd ∧ NodeShrinks nd2 nd := by
  intro es
  induction es with
  | nil =>
    intro st st' js h
    unfold createPipesAux at h
    cases h
    exact ⟨rfl, fun i nd2 h2 => ⟨nd2, h2, NodeShrinks_refl _⟩⟩
  | cons e rest ih =>
    intro st st' js h
    unfold createPipesAux at h
    obtain ⟨r1, h1, h⟩ := bind_ok h
    obtain ⟨st1, j1⟩ := r1
    obtain ⟨r2, h2, h⟩ := bind_ok h
    obtain ⟨st2, js2⟩ := r2
    cases h
    obtain ⟨hlen1, hsh1⟩ := pipeEdge_shrinks h1
    obtain ⟨hlen2, hsh2⟩ := ih h2
    refine ⟨by rw [hlen2, hlen1], ?_⟩
    intro i nd2 hg2
    obtain ⟨ndm, hgm, hshm⟩ := hsh2 i nd2 hg2
    obtain ⟨nd, hg, hsh⟩ := hsh1 i ndm hgm
    exact ⟨nd, hg, NodeShrinks_trans hshm hsh⟩

/-- The binding-rewriting phases establish the per-node postcondition at
every node of the order, over a fully fresh pool. -/
lemma bridgePhase_main {g : Graph} {P : List Nat} {logsDir : String}
    {order : List Nat} {st : PState} {pjs : List ProxyJob} {lcs : List LocalCmd}
    (hord : order.Nodup)
    (hvalid : ∀ i ∈ order, i < g.nodes.length)
    (hGS : ∀ i nd0, g.nodes.get? i = some nd0 → NodeDecl P nd0)
    (hP : P.Nodup)
    (h : bridgePhase g logsDir order { avail := P, granted := [] } = .ok (st, pjs, lcs)) :
    st.nodes.length = g.nodes.length ∧
    poolWF P st.pool ∧
    (∀ i ∈ order, ∃ nd', st.nodes.get? i = some nd' ∧
      NodeDone g P st.pool.granted i nd') := by
  unfold bridgePhase at h
  obtain ⟨r1, h1, h⟩ := bind_ok h
  obtain ⟨st1, js1⟩ := r1
  obtain ⟨r2, h2, h⟩ := bind_ok h
  obtain ⟨st2, cs2⟩ := r2
  cases h
  have hWF0 : poolWF P { avail := P, granted := [] } := ⟨hP, fun m hm => hm⟩
  have horig : ∀ i ∈ order, OrigAt g
      { nodes := labelNodes order g.nodes, pool := { avail := P, granted := [] } } i := by
    intro i hi
    have hlt : i < g.nodes.length := hvalid i hi
    obtain ⟨nd0, hg0⟩ : ∃ nd0, g.nodes.get? i = some nd0 := by
      rw [List.get?_eq_getElem?]
      exact ⟨g.nodes[i], List.getElem?_eq_getElem hlt⟩
    have hbv := @labelNodes_bindView order g.nodes i
    rw [hg0] at hbv
    obtain ⟨nd, hnd, hv⟩ := Option.map_eq_some'.mp hbv
    exact ⟨nd, nd0, hnd, hg0, hv⟩
  obtain ⟨⟨d1, hd1, hd1f⟩, hWF1, hlen1, hfr1, hpost1⟩ :=
    createProxiesAux_main hord hGS horig hWF0 h1
  have hg0all : ∀ i ∈ order, ∃ nd0, g.nodes.get? i = some nd0 := by
    intro i hi
    have hlt : i < g.nodes.length := hvalid i hi
    rw [List.get?_eq_getElem?]
    exact ⟨g.nodes[i], List.getElem?_eq_getElem hlt⟩
  have hdone1 : ∀ i ∈ order, ∃ nd, st1.nodes.get? i = some nd ∧
      NodeDone g P st1.pool.granted i nd := hpost1
  obtain ⟨⟨d2, hd2, hd2f⟩, hWF2, hlen2, hfr2, hpost2⟩ :=
    execAll_main hord hGS hg0all hdone1 hWF1 h2
  refine ⟨?_, hWF2, hpost2⟩
  rw [hlen2, hlen1]
  show (labelNodes order g.nodes).length = g.nodes.length
  exact labelNodes_length

/-- Within a node satisfying the per-node postcondition, an egress with an
outgoing edge cannot share a value with any ingress binding. -/
lemma NodeDone_disjoint {g : Graph} {P granted : List Nat} {i : Nat} {nd : Node}
    (hdn : NodeDone g P granted i nd)
    (hsnapSafe : ∀ w ∈ snapIn g i, SafeVal P w)
    (hgP : ∀ q ∈ granted, q ∈ P)
    {o : String} {vs : List EP}
    (hoe : ∃ e ∈ g.edges, e.src = i ∧ e.srcOut = o)
    (hvs : aget nd.egress o = some vs)
    {k : String} {ws : List EP} (hws : (k, ws) ∈ nd.ingress)
    {v : EP} (hv : v ∈ vs) (hvw : v ∈ ws) : False := by
  obtain ⟨hNI, hki, hke, hout⟩ := hdn
  rcases hout o hoe vs hvs with ⟨qs, hform, hq⟩ | ⟨v0, hform, hsafe, hnsnap⟩
  · -- the egress binds granted ports
    rw [hform] at hv
    rw [List.mem_map] at hv
    obtain ⟨q, hqmem, hvq⟩ := hv
    have hqg : q ∈ granted := hq q hqmem
    rcases hNI.1 k ws hws v hvw with hsnap | ⟨q2, hq2g, hvq2⟩
    · -- a granted port cannot be an original safe ingress value
      have := hsnapSafe v hsnap q
      rw [← hvq] at this
      exact this rfl (hgP q hqg)
    · -- the same granted port counted twice on one node
      have hq2q : q2 = q := by
        rw [← hvq] at hvq2
        injection hvq2 with he
        exact he.symm
      subst hq2q
      have hcnt := hNI.2.2 q2 hqg
      have hc1 : 0 < (bindingVals nd.ingress).count v := by
        rw [List.count_pos_iff]
        exact bindingVals_of_mem hws hvw
      have hc2 : 0 < (bindingVals nd.egress).count v := by
        rw [List.count_pos_iff]
        apply bindingVals_of_mem (aget_mem hvs)
        rw [hform, List.mem_map]
        exact ⟨q2, hqmem, hvq⟩
      have hnv : (nodeVals nd).count (EP.port q2) =
          (bindingVals nd.ingress).count (EP.port q2) +
          (bindingVals nd.egress).count (EP.port q2) := by
        unfold nodeVals
        rw [List.count_append]
      rw [← hvq] at hc1 hc2
      omega
  · -- the egress kept its single safe original value
    rw [hform, List.mem_singleton] at hv
    subst hv
    rcases hNI.1 k ws hws v hvw with hsnap | ⟨q2, hq2g, hvq2⟩
    · exact hnsnap hsnap
    · exact hsafe q2 hvq2 (hgP q2 hq2g)

/-- The alias branch of one Counter iteration: count fresh ports for the
egress, then one fresh port for the first ingress containing the shared
endpoint, both bindings rewritten, and the alias proxy job emitted. -/
lemma proxyStep_alias {snap : List EP} {nd : Node} {pool : Pool} {o : String}
    {count : Nat} {nd' : Node} {pool' : Pool} {js : List ProxyJob}
    {binding : List EP} {outputType : EP}
    (hb : aget nd.egress o = some binding)
    (hh : binding.head? = some outputType)
    (hmem : outputType ∈ snap)
    (h : proxyStep snap nd pool (o, count) = .ok (nd', pool', js)) :
    ∃ outs q0 pool1,
      acquireN count pool = .ok (outs, pool1) ∧
      acquire pool1 = .ok (q0, pool') ∧
      outs.length = count ∧
      pool'.granted = pool.granted ++ outs ++ [q0] ∧
      nd'.egress = aset nd.egress o (outs.map EP.port) ∧
      (∃ ipair, nd.ingress.find? (fun p => decide (outputType ∈ p.2)) = some ipair ∧
        outputType ∈ ipair.2 ∧
        nd'.ingress = aset nd.ingress ipair.1 [EP.port q0]) ∧
      js = [ProxyJob.aliasProxy q0 outputType outs] := by
  unfold proxyStep at h
  obtain ⟨binding2, hb2, h⟩ := bind_ok h
  have hbe : binding = binding2 := by
    have hx : aget nd.egress o = some binding2 := ofOption_ok hb2
    rw [hb] at hx
    exact Option.some.inj hx
  subst hbe
  obtain ⟨outputType2, ho2, h⟩ := bind_ok h
  have hoe : outputType = outputType2 := by
    have hx := ofOption_ok ho2
    rw [hh] at hx
    exact Option.some.inj hx
  subst hoe
  rw [if_pos hmem] at h
  obtain ⟨rOut, h1, h⟩ := bind_ok h
  obtain ⟨rIn, h2, h⟩ := bind_ok h
  obtain ⟨ipair, h3, h⟩ := bind_ok h
  obtain ⟨outs, pool1⟩ := rOut
  obtain ⟨q0, pool2⟩ := rIn
  cases h
  have hfind : nd.ingress.find? (fun p => decide (outputType ∈ p.2)) = some ipair :=
    ofOption_ok h3
  refine ⟨outs, q0, pool1, h1, h2, (acquireN_ok h1).2.2, ?_, rfl,
    ⟨ipair, hfind, ?_, rfl⟩, rfl⟩
  · rw [(acquire_ok h2).2.1, (acquireN_ok h1).2.1]
  · have hp := List.find?_some hfind
    exact of_decide_eq_true hp

/-- C3: the pool hands out each port at most once.  The granted field of
the pool is, by construction of acquire, the chronological list of all
values the pool has handed out during proxy insertion, stdin bridging and
stdout bridging; the claim that no acquisition repeats an earlier one is
its Nodup property whenever the configured pool is duplicate free, which
the default range of availablePorts is.  An acquisition removes the value
it returns from the available list, the available list of a finished plan
is an initial segment of the configured pool (the pool only shrinks), and
an acquisition from a drained pool fails with the exhausted-pool error. -/
theorem C3_endpoint_acquisitions (g : Graph) (order : List Nat) (logsDir : String)
    (P : List Nat) (plan : Plan) (st' : PState)
    (hrun : createPipeline g order logsDir { avail := P, granted := [] } = .ok (plan, st')) :
    (∀ p : Pool, p.avail = [] → acquire p = .error .exhaustedPool) ∧
    (∀ p v q, acquire p = .ok (v, q) →
        v ∈ p.avail ∧ q.granted = p.granted ++ [v] ∧ q.avail ++ [v] = p.avail) ∧
    (st'.pool.granted ++ st'.pool.avail).Perm P ∧
    (∃ d, P = st'.pool.avail ++ d) ∧
    (P.Nodup → st'.pool.granted.Nodup) := by
  have hev := createPipeline_evolves hrun
  obtain ⟨⟨d1, hg⟩, ⟨d2, ha⟩, hperm⟩ := hev
  have hperm' : (st'.pool.granted ++ st'.pool.avail).Perm P := by
    simpa using hperm
  refine ⟨fun p hp => acquire_empty hp,
          fun p v q hq => ⟨(acquire_ok hq).2.2, (acquire_ok hq).2.1, (acquire_ok hq).1⟩,
          hperm', ⟨d2, by simpa using ha⟩, ?_⟩
  intro hnd
  have hall : (st'.pool.granted ++ st'.pool.avail).Nodup := hperm'.symm.nodup hnd
  exact (List.sublist_append_left st'.pool.granted st'.pool.avail).nodup hall

/-- C4: every edge yields one wiring job, in edge order, and the job tees
the stream into the log file
logsDir/l_{sourceLabel}-{targetLabel}-{edgeName}, where the edge name is
derived by addEdge as sourceEgress ++ "2" ++ targetIngress and the labels
are the zero-padded topological indices assigned by the labelling phase.
The suffix and the tee mode depend only on the edge type: a .data file
receiving the raw bytes for binary, a .log file fed through a per-line
wall clock timestamp in the strftime format [%Y-%m-%d %H:%M:%S],
rendering as [YYYY-MM-DD HH:MM:SS], for text, and a plain .log file with
no timestamps for none. -/
theorem C4_edge_log_naming :
    (∀ g src so tgt ti ty g', addEdge g src so tgt ti ty = .ok g' →
        g'.edges = g.edges ++
          [{ src := src, tgt := tgt, srcOut := so, tgtIn := ti
           , name := so ++ "2" ++ ti, etype := ty }]) ∧
    (∀ (order : List Nat) (nodes : List Node) (k i : Nat), order.Nodup →
        (k, i) ∈ order.enum →
        (labelNodes order nodes).get? i =
          (nodes.get? i).map (fun nd => { nd with label := zfill2 k })) ∧
    (∀ logsDir es st st' jobs, createPipesAux logsDir es st = .ok (st', jobs) →
        jobs.length = es.length ∧
        ∀ k e, es.get? k = some e →
          ∃ job, jobs.get? k = some job ∧
            job.tees =
              match e.etype with
              | EdgeType.binary => [TeeSink.dataFile (logsDir ++ "/l_" ++
                  labelOf st e.src ++ "-" ++ labelOf st e.tgt ++ "-" ++ e.name ++ ".data")]
              | EdgeType.text => [TeeSink.tsLog "[%Y-%m-%d %H:%M:%S]" (logsDir ++ "/l_" ++
                  labelOf st e.src ++ "-" ++ labelOf st e.tgt ++ "-" ++ e.name ++ ".log")]
              | EdgeType.none => [TeeSink.plainLog (logsDir ++ "/l_" ++
                  labelOf st e.src ++ "-" ++ labelOf st e.tgt ++ "-" ++ e.name ++ ".log")]) := by
  refine ⟨?_, ?_, ?_⟩
  · intro g src so tgt ti ty g' h
    exact (addEdge_ok h).2
  · intro order nodes k i hnd hki
    exact labelNodes_get hnd hki
  · intro logsDir es st st' jobs h
    obtain ⟨hlen, _, hspec⟩ := createPipesAux_spec h
    refine ⟨hlen, ?_⟩
    intro k e hk
    obtain ⟨job, hj, hjt⟩ := hspec k e hk
    refine ⟨job, hj, ?_⟩
    rw [hjt, teeArgsFor_eq]

/-- Witness for C4 at concrete inputs: a concrete addEdge call, a concrete
labelling, and a concrete per-edge wiring run. -/
theorem C4_edge_log_naming_witness :
    (linearGraph.edges = [] ++
      [{ src := 0, tgt := 1, srcOut := "out", tgtIn := "in"
       , name := "out" ++ "2" ++ "in", etype := EdgeType.text }]) ∧
    ((labelNodes [0, 1] [sampleA, sampleB]).get? 1 =
      ([sampleA, sampleB].get? 1).map (fun nd => { nd with label := zfill2 1 })) ∧
    (∃ job, linearPlan.pipes.get? 0 = some job ∧
      job.tees = [TeeSink.tsLog "[%Y-%m-%d %H:%M:%S]" ("logs" ++ "/l_" ++
        labelOf linearStMid 0 ++ "-" ++ labelOf linearStMid 1 ++ "-" ++ "out2in" ++ ".log")]) :=
  have hadd : addEdge { nodes := [sampleA, sampleB], edges := [] } 0 "out" 1 "in"
      EdgeType.text = .ok linearGraph := by rfl
  have hpipes : createPipesAux "logs" linearGraph.edges linearStMid =
      .ok (linearSt, linearPlan.pipes) := by rfl
  ⟨C4_edge_log_naming.1 _ 0 "out" 1 "in" EdgeType.text _ hadd,
   C4_edge_log_naming.2.1 [0, 1] [sampleA, sampleB] 1 1 (by decide) (by decide),
   (C4_edge_log_naming.2.2 "logs" linearGraph.edges linearStMid linearSt
      linearPlan.pipes hpipes).2 0 sampleEdgeAB rfl⟩

/-- Witness for C3 on a concrete linear pipeline run. -/
theorem C3_endpoint_acquisitions_witness :
    (createPipeline linearGraph [0, 1] "logs" { avail := [9000, 9001, 9002], granted := [] } =
      .ok (linearPlan, linearSt)) ∧
    ((linearSt.pool.granted ++ linearSt.pool.avail).Perm [9000, 9001, 9002] ∧
     (∃ d, [9000, 9001, 9002] = linearSt.pool.avail ++ d) ∧
     ([9000, 9001, 9002].Nodup → linearSt.pool.granted.Nodup)) :=
  have hrun : createPipeline linearGraph [0, 1] "logs"
      { avail := [9000, 9001, 9002], granted := [] } = .ok (linearPlan, linearSt) := by rfl
  ⟨hrun, (C3_endpoint_acquisitions linearGraph [0, 1] "logs" [9000, 9001, 9002]
      linearPlan linearSt hrun).2.2⟩

/-- Witness for C2 at a concrete colliding graph. -/
theorem C2_multiple_producers_check_witness :
    (∀ e ∈ collidingGraph.edges, e.tgt < collidingGraph.nodes.length) ∧
    (∃ i nd names, collidingGraph.nodes.get? i = some nd ∧
      (∃ t, 2 ≤ (inNames collidingGraph i).count t) ∧
      (∀ t, 2 ≤ (inNames collidingGraph i).count t → t ∈ names) ∧
      (∀ t ∈ names, t ∈ inNames collidingGraph i) ∧
      errorMessage (.multipleProducersToInput nd.name names) =
        "Multiple incoming outputs: [" ++ String.intercalate " " names ++
          "] to an input of node " ++ nd.name ++ ". Did you mean to use octocat?" ∧
      (∀ order logsDir pool,
        createPipeline collidingGraph order logsDir pool =
          .error (.multipleProducersToInput nd.name names))) :=
  ⟨by decide,
   (C2_multiple_producers_check collidingGraph (by decide)).2 ⟨1, "in", by decide⟩⟩

/-- C1, amended: (1) when the endpoint at the head of an egress binding of
a processed node also occurs among the node's original ingress endpoint
values, the Counter iteration allocates count fresh endpoints for the
egress and one fresh endpoint for the first ingress containing the shared
value and rewrites both bindings to them; (2) and (3) consequently, once
the binding-rewriting phases (proxy insertion followed by stream bridging)
have run — and likewise after the full planning run, which afterwards only
pops values off binding lists — no node has an egress WITH AT LEAST ONE
OUTGOING EDGE sharing an endpoint with any of the node's ingress
bindings.  The restriction to egresses with an outgoing edge is necessary:
the consequence is false for an egress without outgoing edges, which the
Counter loop never visits (see the counterexample).  The side conditions
say the configured port pool is duplicate free, declared endpoint values
do not collide with the pool, binding-dict keys are unique per node,
declared egress bindings are singletons (as Node.__init__ builds them),
and the topological order enumerates the node indices without
repetition. -/
theorem C1_proxy_alias_separation (g : Graph) (P : List Nat) (order : List Nat)
    (logsDir : String)
    (hP : P.Nodup)
    (hsafe : ∀ nd0 ∈ g.nodes, ∀ v ∈ nodeVals nd0, ∀ m ∈ P, v ≠ EP.port m)
    (hkeys : ∀ nd0 ∈ g.nodes,
      (nd0.ingress.map Prod.fst).Nodup ∧ (nd0.egress.map Prod.fst).Nodup)
    (hsingle : ∀ nd0 ∈ g.nodes, ∀ p ∈ nd0.egress, p.2.length = 1)
    (hord : order.Nodup)
    (hvalid : ∀ i ∈ order, i < g.nodes.length)
    (hcover : ∀ i ∈ List.range g.nodes.length, i ∈ order) :
    (∀ (snap : List EP) (nd : Node) (pool : Pool) (o : String) (count : Nat)
        (nd' : Node) (pool' : Pool) (js : List ProxyJob) (binding : List EP)
        (outputType : EP),
        aget nd.egress o = some binding →
        binding.head? = some outputType →
        outputType ∈ snap →
        proxyStep snap nd pool (o, count) = .ok (nd', pool', js) →
        ∃ outs q0 pool1,
          acquireN count pool = .ok (outs, pool1) ∧
          acquire pool1 = .ok (q0, pool') ∧
          outs.length = count ∧
          pool'.granted = pool.granted ++ outs ++ [q0] ∧
          nd'.egress = aset nd.egress o (outs.map EP.port) ∧
          (∃ ipair, nd.ingress.find? (fun p => decide (outputType ∈ p.2)) = some ipair ∧
            outputType ∈ ipair.2 ∧
            nd'.ingress = aset nd.ingress ipair.1 [EP.port q0]) ∧
          js = [ProxyJob.aliasProxy q0 outputType outs]) ∧
    (∀ st pjs lcs,
        bridgePhase g logsDir order { avail := P, granted := [] } = .ok (st, pjs, lcs) →
        ∀ i nd, st.nodes.get? i = some nd →
        ∀ o vs, (o, vs) ∈ nd.egress →
        (∃ e ∈ g.edges, e.src = i ∧ e.srcOut = o) →
        ∀ k ws, (k, ws) ∈ nd.ingress → ∀ v ∈ vs, v ∉ ws) ∧
    (∀ plan st,
        createPipeline g order logsDir { avail := P, granted := [] } = .ok (plan, st) →
        ∀ i nd, st.nodes.get? i = some nd →
        ∀ o vs, (o, vs) ∈ nd.egress →
        (∃ e ∈ g.edges, e.src = i ∧ e.srcOut = o) →
        ∀ k ws, (k, ws) ∈ nd.ingress → ∀ v ∈ vs, v ∉ ws) := by
  have hGS : ∀ i nd0, g.nodes.get? i = some nd0 → NodeDecl P nd0 := by
    intro i nd0 hget
    have hmem : nd0 ∈ g.nodes := List.get?_mem hget
    refine ⟨?_, (hkeys nd0 hmem).1, (hkeys nd0 hmem).2, hsingle nd0 hmem⟩
    intro v hv m hvm hmP
    exact (hsafe nd0 hmem v hv m hmP) hvm
  refine ⟨?_, ?_, ?_⟩
  · -- (1) the alias branch
    intro snap nd pool o count nd' pool' js binding outputType hb hh hmem h
    exact proxyStep_alias hb hh hmem h
  · -- (2) after the binding-rewriting phases
    intro st pjs lcs hrun i nd hget o vs hovs hoe k ws hkws v hv hvw
    obtain ⟨hlen, hWF, hpost⟩ := bridgePhase_main hord hvalid hGS hP hrun
    have hlt : i < st.nodes.length := by
      by_contra hge
      push_neg at hge
      rw [List.get?_eq_getElem?, List.getElem?_eq_none hge] at hget
      cases hget
    have hio : i ∈ order := by
      apply hcover
      rw [List.mem_range]
      rw [hlen] at hlt
      exact hlt
    obtain ⟨nd2, hget2, hdn⟩ := hpost i hio
    have hnd2 : nd = nd2 := by
      rw [hget] at hget2
      exact Option.some.inj hget2
    subst hnd2
    obtain ⟨nd0, hg0⟩ : ∃ nd0, g.nodes.get? i = some nd0 := by
      rw [List.get?_eq_getElem?]
      rw [hlen] at hlt
      exact ⟨g.nodes[i], List.getElem?_eq_getElem hlt⟩
    have hsnapSafe := snapIn_safe hg0 (hGS i nd0 hg0)
    have hgP : ∀ q ∈ st.pool.granted, q ∈ P :=
      fun q hq => hWF.2 q (List.mem_append_left _ hq)
    have hvs : aget nd.egress o = some vs := mem_aget hdn.2.2.1 hovs
    exact NodeDone_disjoint hdn hsnapSafe hgP hoe hvs hkws hv hvw
  · -- (3) after the full planning run
    intro plan st hrun i nd hget o vs hovs hoe k ws hkws v hv hvw
    unfold createPipeline at hrun
    obtain ⟨u, hs, hrun⟩ := bind_ok hrun
    unfold planAfterSanity at hrun
    obtain ⟨rb, hbx, hrun⟩ := bind_ok hrun
    obtain ⟨stB, pjsB, lcsB⟩ := rb
    obtain ⟨rp, hpx, hrun⟩ := bind_ok hrun
    obtain ⟨stP, pjs2⟩ := rp
    cases hrun
    obtain ⟨hlenP, hshAll⟩ := createPipesAux_shrinks hpx
    obtain ⟨ndB, hgetB, hsh⟩ := hshAll i nd hget
    obtain ⟨hlen, hWF, hpost⟩ := bridgePhase_main hord hvalid hGS hP hbx
    have hlt : i < stB.nodes.length := by
      by_contra hge
      push_neg at hge
      rw [List.get?_eq_getElem?, List.getElem?_eq_none hge] at hgetB
      cases hgetB
    have hio : i ∈ order := by
      apply hcover
      rw [List.mem_range]
      rw [hlen] at hlt
      exact hlt
    obtain ⟨nd2, hget2, hdn⟩ := hpost i hio
    have hnd2 : ndB = nd2 := by
      rw [hgetB] at hget2
      exact Option.some.inj hget2
    subst hnd2
    obtain ⟨nd0, hg0⟩ : ∃ nd0, g.nodes.get? i = some nd0 := by
      rw [List.get?_eq_getElem?]
      rw [hlen] at hlt
      exact ⟨g.nodes[i], List.getElem?_eq_getElem hlt⟩
    have hsnapSafe := snapIn_safe hg0 (hGS i nd0 hg0)
    have hgP : ∀ q ∈ stB.pool.granted, q ∈ P :=
      fun q hq => hWF.2 q (List.mem_append_left _ hq)
    have hkegF : (nd.egress.map Prod.fst).Nodup := by
      rw [hsh.2.1]
      exact hdn.2.2.1
    have hkinF : (nd.ingress.map Prod.fst).Nodup := by
      rw [hsh.1.1]
      exact hdn.2.1
    have hvsF : aget nd.egress o = some vs := mem_aget hkegF hovs
    obtain ⟨vsB, hvsB, hsubE⟩ := hsh.2.2 o vs hvsF
    have hwsF : aget nd.ingress k = some ws := mem_aget hkinF hkws
    obtain ⟨wsB, hwsB, hsubI⟩ := hsh.1.2 k ws hwsF
    exact NodeDone_disjoint hdn hsnapSafe hgP hoe hvsB (aget_mem hwsB)
      (hsubE hv) (hsubI hvw)

/-- Witness for C1 at the concrete aliasing pipeline wGraph: the bridge
state binds the egress o of B to the fresh port 9002 and its ingress to
the fresh 9001, and the alias Counter iteration on B itself pops one
endpoint for the egress and one for the ingress. -/
theorem C1_proxy_alias_separation_witness :
    EP.port 9002 ∉ [EP.port 9001] ∧
    (∃ outs q0 pool1,
      acquireN 1 wPool = .ok (outs, pool1) ∧
      acquire pool1 = .ok (q0, { avail := [9000], granted := [9002, 9001] }) ∧
      outs.length = 1) := by
  have hmain := C1_proxy_alias_separation wGraph [9000, 9001, 9002] [0, 1, 2] "logs"
    (by decide) (by decide) (by decide) (by decide) (by decide) (by decide) (by decide)
  constructor
  · exact hmain.2.1 _ _ _ rfl 1 _ rfl "o" [EP.port 9002] (by decide)
      ⟨{ src := 1, tgt := 2, srcOut := "o", tgtIn := "i", name := "o2i"
       , etype := EdgeType.text }, by decide, rfl, rfl⟩
      "in" [EP.port 9001] (by decide) (EP.port 9002) (by decide)
  · obtain ⟨outs, q0, pool1, h1, h2, h3, _⟩ :=
      hmain.1 [EP.port 5000] wNodeB wPool "o" 1 _ _ _ [EP.port 5000] (EP.port 5000)
        rfl rfl (by decide) rfl
    exact ⟨outs, q0, pool1, h1, h2, h3⟩

/-- Counterexample to the unrestricted consequence of C1: planning the
concrete graph cexGraph succeeds, yet afterwards node B still has its
egress o and its ingress i1 both bound to the declared endpoint
port 5000, because the egress o has no outgoing edge and proxy insertion
iterates only over the Counter of outgoing-edge egress names. -/
theorem C1_proxy_alias_separation_cex :
    ∃ plan st nd,
      createPipeline cexGraph [0, 1] "logs" cexPool = .ok (plan, st) ∧
      st.nodes.get? 1 = some nd ∧
      ("o", [EP.port 5000]) ∈ nd.egress ∧
      ("i1", [EP.port 5000]) ∈ nd.ingress := by
  refine ⟨_, _, _, rfl, rfl, ?_, ?_⟩
  · decide
  · decide

end Pipeliner
